import Mathlib

/-!
Shallow embedding of the computational content of the notebook
Check_Standard_Conjectures.ipynb (SageMath), which checks the arithmetic
standard conjectures for Grassmannians, together with proofs about it.

Conventions used throughout the embedding:
* Sage integer vectors of non-negative entries become `List Nat`.
* Sage inclusive ranges `(a..b)` become `srange a b` over `Int`.
* Python exceptions become `Except String` values carrying the message.
* Sage matrices (used here only as rectangular tables that are created
  zero-filled and then written entry by entry) become `List (List Nat)`
  resp. `List (List Rat)`, row-major, written with `List.set`.
* The external library routine `kostka_number_symmetrica` (the Kostka
  number, i.e. the count of semistandard Young tableaux of a given shape
  and content) is implemented here directly by the standard
  horizontal-strip recursion, since it is an external collaborator of the
  notebook, not code of the repository.
-/

/-- Integer vector with non-negative entries, as used by the notebook. -/
abbrev Vec := List Nat

/-- Matrix of pool indices (Sage integer matrix), row-major. -/
abbrev IdxMat := List (List Nat)

/-- Decidable equality for `Except`, used to evaluate the embedding on
concrete inputs inside proofs. -/
instance {e a : Type _} [DecidableEq e] [DecidableEq a] :
    DecidableEq (Except e a) := fun x y =>
  match x, y with
  | Except.error u, Except.error v =>
    if h : u = v then Decidable.isTrue (congrArg Except.error h)
    else Decidable.isFalse (fun hh => h (by cases hh; rfl))
  | Except.error _, Except.ok _ =>
    Decidable.isFalse (fun hh => Except.noConfusion hh)
  | Except.ok _, Except.error _ =>
    Decidable.isFalse (fun hh => Except.noConfusion hh)
  | Except.ok u, Except.ok v =>
    if h : u = v then Decidable.isTrue (congrArg Except.ok h)
    else Decidable.isFalse (fun hh => h (by cases hh; rfl))

/-- Sage inclusive integer range `(a..b)`; empty when `b < a`. -/
def srange (a b : Int) : List Int :=
  (List.range (b - a + 1).toNat).map (fun i : Nat => a + (i : Int))

/-- Source function `weight(v)`: `sum([v[k-1]*k for k in (1..len(v))])`,
the weighted sum of the entries of `v` with weights `1, 2, ..., n`. -/
def weight (v : Vec) : Nat :=
  ((List.range v.length).map (fun k => v.getD k 0 * (k + 1))).sum

/-- Source function `harm_list(n)`: `H = [0]`, then for `k in (1..n)`
append `H[-1] + 1/k`; the list of harmonic numbers `[H_0, ..., H_n]`. -/
def harm_list (n : Int) : List Rat :=
  (srange 1 n).foldl (fun H k => H ++ [H.getLastD 0 + 1 / (Int.cast k : Rat)]) [0]

/-- Enumeration of `IntegerVectors(j,n).list()`: all length-`n` lists of
non-negative integers with sum `j`, in the lexicographically decreasing
order Sage uses (first coordinate descending from `j` to `0`). -/
def IntegerVectors (j n : Nat) : List Vec :=
  match n with
  | 0 => if j = 0 then [[]] else []
  | n + 1 =>
    (List.range (j + 1)).flatMap (fun i =>
      (IntegerVectors i n).map (fun v => (j - i) :: v))

/-- Stable insertion of a vector into a weight-sorted list: `x` goes in
front of the first element of weight not smaller than its own. -/
def insertW (x : Vec) : List Vec → List Vec
  | [] => [x]
  | y :: ys => if weight y < weight x then y :: insertW x ys else x :: y :: ys

/-- Stable sort by `weight`. The notebook uses `l.sort(key=weight)`;
a stable sort by a key has a unique result, so this insertion sort
returns exactly the list Python produces. -/
def sortW : List Vec → List Vec
  | [] => []
  | x :: xs => insertW x (sortW xs)

/-- Python `itertools.groupby(l, key=weight)` with each group listed, as
used in `B`: split a list into maximal runs of consecutive elements with
equal weight. -/
def groupRuns : List Vec → List (List Vec)
  | [] => []
  | [x] => [[x]]
  | x :: y :: xs =>
    match groupRuns (y :: xs) with
    | g :: gs =>
      if weight x = weight y then (x :: g) :: gs else [x] :: g :: gs
    | [] => [[x]]

/-- Source function `B(m,n)`: for `m < 0` or `n < 0` return `[]`;
otherwise list all vectors of `IntegerVectors(j,n)` for `j in (0..m)`,
sort them (stably) by weight and group them by weight. -/
def B (m n : Int) : List (List Vec) :=
  if m < 0 ∨ n < 0 then []
  else
    groupRuns (sortW ((srange 0 m).flatMap
      (fun j => IntegerVectors j.toNat n.toNat)))

/-- Sage `vector([1]+[0]*(n-1))`, the first unit vector; note that for
`n = 0` this is the length-one vector `[1]`, exactly as in the source. -/
def e1 (n : Nat) : Vec := 1 :: List.replicate (n - 1) 0

/-- Scalar multiple `c * v` of a Sage vector. -/
def smul (c : Nat) (v : Vec) : Vec := v.map (fun x => c * x)

/-- Sage vector addition `v + w`.  Sage raises a `TypeError` when the
two vectors do not have the same degree, which the embedding models by
an `Except String` error. -/
def vadd (v w : Vec) : Except String Vec :=
  if v.length = w.length then Except.ok (List.zipWith (fun a b => a + b) v w)
  else Except.error "TypeError: unsupported operand parent(s) for +"

/-- Horizontal strips: all `nu` with `nu <= lam` componentwise,
`lam[i+1] <= nu[i]` (at most one removed cell per column) and exactly
`k` cells removed in total.  Auxiliary for the Kostka number. -/
def hstrips : List Nat → Nat → List (List Nat)
  | [], 0 => [[]]
  | [], _ + 1 => []
  | a :: rest, k =>
    ((List.range (a + 1)).filter
        (fun v => decide (rest.headD 0 ≤ v) && decide (a - v ≤ k))).flatMap
      (fun v => (hstrips rest (k - (a - v))).map (fun nu => v :: nu))

/-- Kostka recursion on the reversed content: place the largest entry
value as a horizontal strip, then recurse. -/
def kostkaRev : List Nat → List Nat → Nat
  | lam, [] => if lam.all (fun a => a = 0) then 1 else 0
  | lam, k :: rest => ((hstrips lam k).map (fun nu => kostkaRev nu rest)).sum

/-- Kostka number `K_{lam,w}` = number of semistandard Young tableaux of
shape `lam` containing `w[i-1]` copies of the value `i`; the external
routine `kostka_number_symmetrica` imported by the notebook as
`kostka`. -/
def kostka (lam w : List Nat) : Nat := kostkaRev lam w.reverse

/-- Content list `w = sum([[j]*r[j-1] for j in (1..n)],[])` built by both
degree functions: `r[j-1]` copies of the value `j`, ascending; this is the
partition `mu(r)` of the paper. -/
def muPart (r : List Nat) : List Nat :=
  (List.range r.length).flatMap (fun j => List.replicate (r.getD j 0) (j + 1))

/-- Source function `gdeg(r)`: the geometric degree of the monomial
`x^r`, computed as the Kostka number of the rectangular shape `[n]*m`
(with `n = len(r)` and `m = weight(r)//n`) and content `mu(r)`.
Raises `ValueError` when the weight is not a multiple of the length;
the `%` by zero a Python call with `r = []` would perform is modelled
by the corresponding `ZeroDivisionError`. -/
def gdeg (r : List Nat) : Except String Nat :=
  let n := r.length
  let p := weight r
  if n = 0 then
    Except.error "ZeroDivisionError: integer division or modulo by zero"
  else if p % n ≠ 0 then
    Except.error "ValueError: The weight must be a multiple of the length"
  else
    Except.ok (kostka (List.replicate (p / n) n) (muPart r))

/-- Source function `Tam(m,n)`: the list of triples `(a,b,j)` with
`a in (0..m-1)`, `j in (0..n-1)`, `b in (j+1..min(n-1,m+n-a-j-1))`,
in exactly that loop order. -/
def Tam (m n : Int) : List (Int × Int × Int) :=
  (srange 0 (m - 1)).flatMap (fun a =>
    (srange 0 (n - 1)).flatMap (fun j =>
      (srange (j + 1) (min (n - 1) (m + n - a - j - 1))).map
        (fun b => (a, b, j))))

/-- Conjugate of a partition given as a weakly decreasing list, the Sage
call `Partition(l).conjugate()`: the i-th conjugate part counts the
parts of `l` exceeding `i` (0-based).  The argument of the only call
site, in `adeg`, is always a valid partition. -/
def conjugatePart (l : List Int) : List Nat :=
  (List.range (l.headD 0).toNat).map
    (fun i => l.countP (fun x => decide ((i : Int) < x)))

/-- Python `zip` of three lists followed by `sum` on each triple, as in
`[sum(x) for x in zip(A,B,C)]`; truncates to the shortest list. -/
def zipSum3 (A C D : List Int) : List Int :=
  List.zipWith (fun a b => a + b) (List.zipWith (fun a b => a + b) A C) D

/-- Source function `adeg(r,T=None,H=None)`: the arithmetic degree of
the monomial `x^r` by the Tamvakis formula.  `n = len(r)`,
`p = weight(r)`; raises `ValueError` when `(p-1) % n != 0` (with the
Python floor conventions: `Int.emod`/`Int.ediv` for positive `n`), else
sums the distinguished Kostka term and the signed terms over the index
set `T` (defaulted to `Tam(m,n)`), with harmonic numbers from `H`
(defaulted to `harm_list(m+n-1)`), and divides by two.  List indexing
`H[k]` is total here (`getD`); every index reached with the default
tables is within range.  As in `gdeg`, a call with `r = []` is the
Python `ZeroDivisionError`. -/
def adeg (r : List Nat) (T? : Option (List (Int × Int × Int)))
    (H? : Option (List Rat)) : Except String Rat :=
  let n := r.length
  let p := weight r
  if n = 0 then
    Except.error "ZeroDivisionError: integer division or modulo by zero"
  else if ((p : Int) - 1).emod n ≠ 0 then
    Except.error "ValueError: The weight must be congruent to one modulo the length"
  else
    let m : Int := ((p : Int) - 1).ediv n
    let T := T?.getD (Tam m n)
    let H := H?.getD (harm_list (m + n - 1))
    let w := muPart r
    let s₁ : Rat := (kostka (List.replicate m.toNat n ++ [1]) w : Rat) *
      ((srange n (m + n - 1)).map (fun k => H.getD k.toNat 0)).sum
    let s₂ : Rat := (T.map (fun t =>
      let a := t.1
      let b := t.2.1
      let j := t.2.2
      let l := conjugatePart (zipSum3
        (List.replicate (n - 1) (m - 1) ++ [a])
        (List.replicate b.toNat 1 ++ List.replicate ((n : Int) - b).toNat 0)
        ([m + n - a - b - j] ++ List.replicate j.toNat 1 ++
          List.replicate ((n : Int) - j - 1).toNat 0))
      ((-1 : Rat)) ^ (n + b.toNat + j.toNat) * (kostka l w : Rat) *
        (H.getD (m + n - a - j - 1).toNat 0 -
          H.getD (m + n - a - b - 1).toNat 0))).sum
    Except.ok ((s₁ + s₂) / 2)

/-- Calling the source function `gdeg` with the two auxiliary-table
arguments that `adeg` accepts.  The source defines `def gdeg(r):` with
a single parameter and no table parameters, so Python raises a
`TypeError` whenever the tables are passed; passing none is the plain
call. -/
def gdeg_with_tables (r : List Nat) (T? : Option (List (Int × Int × Int)))
    (H? : Option (List Rat)) : Except String Nat :=
  match T?, H? with
  | none, none => gdeg r
  | _, _ =>
    Except.error "TypeError: gdeg() takes 1 positional argument but 3 were given"

/-- Zero matrix with `r` rows and `c` columns, Sage `matrix(r)` /
`matrix(r,c)` (created zero-filled). -/
def zeroM (r c : Nat) : IdxMat := List.replicate r (List.replicate c 0)

/-- Write entry `(i,j)` of a row-major matrix, Sage `A[i,j] = v`. -/
def setM (A : IdxMat) (i j v : Nat) : IdxMat := A.set i ((A.getD i []).set j v)

/-- The symmetric double write `M[p][i,j] = v; M[p][j,i] = M[p][i,j]`
performed by `Vgeom` and by the first loop of `Varith`. -/
def set2 (A : IdxMat) (i j v : Nat) : IdxMat := setM (setM A i j v) j i v

/-- Replace position `p` of a list of matrices by a rewritten matrix. -/
def setP (M : List IdxMat) (p : Nat) (f : IdxMat → IdxMat) : List IdxMat :=
  M.set p (f (M.getD p []))

/-- State threaded through the loops of `Vgeom`: the shared vector pool
`Z` and the list `M` of pairing-index matrices. -/
abbrev VgState := List Vec × List IdxMat

/-- The combined vector `z = L[p][i] + L[p][j] + (n*m-2*p)*e` formed at
loop position `(p,i,j)` of `Vgeom`. -/
def vgComb (L : List (List Vec)) (e : Vec) (nm : Nat)
    (t : Nat × Nat × Nat) : Except String Vec := do
  let l := L.getD t.1 []
  let z₁ ← vadd (l.getD t.2.1 []) (l.getD t.2.2 [])
  vadd z₁ (smul (nm - 2 * t.1) e)

/-- One iteration of the nested loops of `Vgeom`, at loop indices
`(p,i,j)`: form `z = l[i] + l[j] + (n*m-2*p)*e`, look it up in the pool
`Z` (appending it when absent) and write its pool index symmetrically
into `M[p]` at `(i,j)` and `(j,i)`. -/
def vgStep (L : List (List Vec)) (e : Vec) (nm : Nat) (s : VgState)
    (t : Nat × Nat × Nat) : Except String VgState := do
  let z ← vgComb L e nm t
  if z ∈ s.1 then
    Except.ok (s.1, setP s.2 t.1
      (fun A => set2 A t.2.1 t.2.2 (s.1.indexOf z)))
  else
    let Z := s.1 ++ [z]
    Except.ok (Z, setP s.2 t.1
      (fun A => set2 A t.2.1 t.2.2 (Z.length - 1)))

/-- The iteration sequence of the nested loops of `Vgeom`:
`p in (0..floor(n*m/2))`, `i in range(len(L[p]))`,
`j in range(i, len(L[p]))`, flattened in loop order. -/
def vgVisits (L : List (List Vec)) (P : Nat) : List (Nat × Nat × Nat) :=
  (List.range P).flatMap (fun p =>
    (List.range (L.getD p []).length).flatMap (fun i =>
      (List.range' i ((L.getD p []).length - i)).map (fun j => (p, i, j))))

/-- Source function `Vgeom(m,n)`.  For `m < 0` or `n < 0` the source
returns the empty list instead of a pair, modelled by `none`; otherwise
it builds the deduplicated pool `Z` and the pairing-index matrices `M`
(initially `matrix(len(L[p]))` for `p` up to `floor(n*m/2)`) by the
nested loops above.  A Sage `TypeError` raised by a vector addition
(this happens for `n = 0`, where `e1` has degree 1 but the basis
vectors have degree 0) propagates as the error case. -/
def Vgeom (m n : Int) :
    Except String (Option (List Vec × List IdxMat)) :=
  if m < 0 ∨ n < 0 then Except.ok none
  else
    let L := B m n
    let nm := n.toNat * m.toNat
    let M₀ := (L.take (nm / 2 + 1)).map (fun x => zeroM x.length x.length)
    do
      let s ← (vgVisits L (nm / 2 + 1)).foldlM (vgStep L (e1 n.toNat) nm)
        (([] : List Vec), M₀)
      Except.ok (some s)

/-- State threaded through the loops of `Varith`: the two pools
`Z[0]`, `Z[1]` and the per-grade pairs of matrices
`(A_p, B_p) = (M[p][0], M[p][1])`. -/
abbrev VaState := (List Vec × List Vec) × List (IdxMat × IdxMat)

/-- The combined vector formed at a loop position of `Varith`: for a
self-pairing visit `(false,p,i,j)` it is `L[p][i] + L[p][j] + c*e` and
for a cross-pairing visit `(true,p,i,j)` it is
`L[p][i] + L[p-1][j] + c*e`, with `c = n*m+1-2*p`. -/
def vaComb (L : List (List Vec)) (e : Vec) (nm : Nat)
    (t : Bool × Nat × Nat × Nat) : Except String Vec := do
  let l := L.getD t.2.1 []
  let x₂ := if t.1 = false then l.getD t.2.2.2 []
            else (L.getD (t.2.1 - 1) []).getD t.2.2.2 []
  let z₁ ← vadd (l.getD t.2.2.1 []) x₂
  vadd z₁ (smul (nm + 1 - 2 * t.2.1) e)

/-- One iteration of the loops of `Varith`.  A visit `(false,p,i,j)` is
the symmetric self-pairing write on pool `Z[0]` and matrix `M[p][0]`
with `z = l[i] + l[j] + (n*m+1-2*p)*e`; a visit `(true,p,i,j)` is the
single cross-pairing write on pool `Z[1]` and matrix `M[p][1]` with
`z = l[i] + l2[j] + (n*m+1-2*p)*e`, `l2 = L[p-1]`. -/
def vaStep (L : List (List Vec)) (e : Vec) (nm : Nat) (s : VaState)
    (t : Bool × Nat × Nat × Nat) : Except String VaState := do
  let z ← vaComb L e nm t
  let p := t.2.1
  let i := t.2.2.1
  let j := t.2.2.2
  if t.1 = false then
    if z ∈ s.1.1 then
      Except.ok ((s.1.1, s.1.2),
        s.2.set p ((set2 (s.2.getD p ([], [])).1 i j (s.1.1.indexOf z)),
          (s.2.getD p ([], [])).2))
    else
      let Z := s.1.1 ++ [z]
      Except.ok ((Z, s.1.2),
        s.2.set p ((set2 (s.2.getD p ([], [])).1 i j (Z.length - 1)),
          (s.2.getD p ([], [])).2))
  else
    if z ∈ s.1.2 then
      Except.ok ((s.1.1, s.1.2),
        s.2.set p ((s.2.getD p ([], [])).1,
          setM (s.2.getD p ([], [])).2 i j (s.1.2.indexOf z)))
    else
      let Z := s.1.2 ++ [z]
      Except.ok ((s.1.1, Z),
        s.2.set p ((s.2.getD p ([], [])).1,
          setM (s.2.getD p ([], [])).2 i j (Z.length - 1)))

/-- The iteration sequence of the loops of `Varith`: for each
`p in (1..floor((n*m+1)/2))` first the full symmetric double loop over
`L[p]`, then the full cross loop over `L[p]` and `L[p-1]`. -/
def vaVisits (L : List (List Vec)) (Q : Nat) :
    List (Bool × Nat × Nat × Nat) :=
  (List.range' 1 Q).flatMap (fun p =>
    ((List.range (L.getD p []).length).flatMap (fun i =>
      (List.range' i ((L.getD p []).length - i)).map
        (fun j => (false, p, i, j)))) ++
    ((List.range (L.getD p []).length).flatMap (fun i =>
      (List.range (L.getD (p - 1) []).length).map
        (fun j => (true, p, i, j)))))

/-- Registered equality instances so that concrete `Varith` results can
be evaluated by `decide` inside proofs. -/
instance : DecidableEq VaState := inferInstance

instance : DecidableEq (Option VaState) := inferInstance

/-- Source function `Varith(m,n)`.  For `m < 0` or `n < 0` the source
returns the empty list instead of a pair, modelled by `none`.
Otherwise the pools start as `Z = [[(n*m+1)*e],[]]` and the matrices as
`[[matrix(QQ,1,1,[0]), matrix(QQ,0)]]` followed by a pair
`(matrix(len(L[p])), matrix(len(L[p]),len(L[p-1])))` for each
`p in (1..floor((n*m+1)/2))`, which the loops then fill in. -/
def Varith (m n : Int) :
    Except String (Option ((List Vec × List Vec) × List (IdxMat × IdxMat))) :=
  if m < 0 ∨ n < 0 then Except.ok none
  else
    let L := B m n
    let nN := n.toNat
    let nm := nN * m.toNat
    let Q := (nm + 1) / 2
    let M₀ : List (IdxMat × IdxMat) := ([[0]], ([] : IdxMat)) ::
      (List.range' 1 Q).map (fun p =>
        (zeroM (L.getD p []).length (L.getD p []).length,
         zeroM (L.getD p []).length (L.getD (p - 1) []).length))
    do
      let s ← (vaVisits L Q).foldlM (vaStep L (e1 nN) nm)
        (([smul (nm + 1) (e1 nN)], ([] : List Vec)), M₀)
      Except.ok (some s)

/-- The in-place entry replacement loop of `gHodge`: for each matrix of
`M`, with `d = M[p].dimensions()[0]`, every entry is replaced by the
degree `D[M[p][i,j]]` of the pool vector it indexes. -/
def ghRepl (D : List Nat) (A : IdxMat) : IdxMat :=
  (List.range A.length).foldl (fun A i =>
    (List.range A.length).foldl (fun A j =>
      setM A i j (D.getD ((A.getD i []).getD j 0) 0)) A) A

/-- Source function `gHodge(m,n)`: unpack `Z, M = Vgeom(m,n)` (for
negative arguments the source unpacks an empty list, a `ValueError`),
compute `D = [gdeg(v) for v in Z]`, then replace every index entry of
every `M[p]` by the corresponding degree. -/
def gHodge (m n : Int) : Except String (List IdxMat) :=
  match Vgeom m n with
  | Except.error e => Except.error e
  | Except.ok none =>
    Except.error "ValueError: not enough values to unpack (expected 2, got 0)"
  | Except.ok (some (Z, M)) => do
    let D ← Z.mapM gdeg
    Except.ok ((List.range M.length).foldl
      (fun M p => M.set p (ghRepl D (M.getD p []))) M)

/-- Source function `Check_GST(m,n)`.  Its first statement evaluates
`Signature(HilbGeommm(m,n))`, and the name `HilbGeommm` is not defined
anywhere in the notebook (the defined Hilbert-series function is
`HilbGeom`), so every call raises `NameError` before anything else
runs; the remaining statements of the body (building `gHodge(m,n)`,
testing singularity and comparing signatures) are unreachable.  The
embedding therefore returns that error directly. -/
def Check_GST (_m _n : Int) : Except String (List IdxMat × Bool) :=
  Except.error "NameError: name HilbGeommm is not defined"

/-- Rational matrix, row-major. -/
abbrev QMat := List (List Rat)

/-- Sage `matrix(QQ, A)`: cast an integer matrix to the rationals. -/
def castQ (A : IdxMat) : QMat := A.map (fun row => row.map Nat.cast)

/-- Write entry `(i,j)` of a rational matrix. -/
def setMQ (A : QMat) (i j : Nat) (v : Rat) : QMat :=
  A.set i ((A.getD i []).set j v)

/-- The in-place replacement loop of `aHodge` on one matrix: every
entry, which is a rational holding a pool index, is replaced by
`f` of that index (`Darith[...]` resp. `Dgeom[...]/2`).  Row count `r`
and column count `c` are the two components of `dimensions()`. -/
def ahRepl (f : Nat → Rat) (r c : Nat) (A : QMat) : QMat :=
  (List.range r).foldl (fun A i =>
    (List.range c).foldl (fun A j =>
      setMQ A i j (f ((A.getD i []).getD j 0).num.toNat)) A) A

/-- Transpose of an `r × c` rational matrix. -/
def transposeQ (A : QMat) (r c : Nat) : QMat :=
  (List.range c).map (fun i =>
    (List.range r).map (fun j => (A.getD j []).getD i 0))

/-- Sage `block_matrix([[A,B],[B.transpose(),0]])` for `A` of size
`d × d` and `B` of size `d1 × d2`: the top rows are the rows of `A`
continued by the rows of `B`, the bottom rows are the rows of the
transpose of `B` continued by zeroes. -/
def blockM (A Bm : QMat) (d d1 d2 : Nat) : QMat :=
  ((List.range d).map (fun i => (A.getD i []) ++ (Bm.getD i []))) ++
    ((transposeQ Bm d1 d2).map (fun row => row ++ List.replicate d2 0))

/-- Scalar multiple of a rational matrix, `(-1)^p * M`. -/
def scaleM (c : Rat) (A : QMat) : QMat :=
  A.map (fun row => row.map (fun x => c * x))

/-- The body of the `aHodge` loop for a grade `p >= 1`: replace the
entries of `M[p][0]` by arithmetic degrees and those of `M[p][1]` by
half geometric degrees, then assemble the signed block matrix
`(-1)^p * block_matrix([[M[p][0],M[p][1]],[M[p][1].transpose(),0]])`. -/
def aBlock (p : Nat) (DA DG : List Rat) (pr : IdxMat × IdxMat) : QMat :=
  let d := pr.1.length
  let A := ahRepl (fun q => DA.getD q 0) d d (castQ pr.1)
  let d1 := pr.2.length
  let d2 := (pr.2.headD []).length
  let Bq := ahRepl (fun q => DG.getD q 0 / 2) d1 d2 (castQ pr.2)
  scaleM ((-1 : Rat) ^ p) (blockM A Bq d d1 d2)

/-- Source function `aHodge(m,n)`: unpack `Z, M = Varith(m,n)` (for
negative arguments the source unpacks an empty list, a `ValueError`),
precompute the tables `T = Tam(m,n)` and `H = harm_list(m+n-1)`, the
degree lists `Darith = [adeg(v,T,H) for v in Z[0]]` and
`Dgeom = [gdeg(v) for v in Z[1]]`, set
`M[0] = matrix(QQ,[Darith[M[0][0][0,0]]])` and rewrite every `M[p]`
with `p >= 1` by `aBlock`; the source rewrites the list in place, so
the result is the positionwise rewrite of `M`. -/
def aHodge (m n : Int) : Except String (List QMat) :=
  match Varith m n with
  | Except.error e => Except.error e
  | Except.ok none =>
    Except.error "ValueError: not enough values to unpack (expected 2, got 0)"
  | Except.ok (some ((Z0, Z1), M)) => do
    let T := Tam m n
    let H := harm_list (m + n - 1)
    let Darith ← Z0.mapM (fun v => adeg v (some T) (some H))
    let Dgeom ← Z1.mapM gdeg
    Except.ok ((List.range M.length).map (fun p =>
      if p = 0 then
        [[Darith.getD ((((M.getD 0 ([], [])).1).getD 0 []).getD 0 0) 0]]
      else aBlock p Darith (Dgeom.map Nat.cast)
        (M.getD p ([], []))))

/-- C9: for negative `m` or `n`, `B` returns the empty list and `Varith`
returns the empty result (`none`, the `return []` of the source), with
no error raised. -/
theorem claim_C9_degenerate_bounds (m n : Int) (h : m < 0 ∨ n < 0) :
    B m n = [] ∧ Varith m n = Except.ok none := by
  constructor
  · unfold B
    exact if_pos h
  · unfold Varith
    exact if_pos h

/-- Witness for C9 at the concrete input `(m,n) = (-1,0)`. -/
theorem claim_C9_witness :
    ((-1 : Int) < 0 ∨ (0 : Int) < 0) ∧
      (B (-1) 0 = [] ∧ Varith (-1) 0 = Except.ok none) :=
  ⟨Or.inl (by decide), claim_C9_degenerate_bounds (-1) 0 (Or.inl (by decide))⟩

/-- C1: `Check_GST` never returns normally: the undefined name
`HilbGeommm` in its first statement raises `NameError` on every call,
so no pair `(H, flag)` is ever produced, for any `m` and `n`. -/
theorem claim_C1_check_gst_raises (m n : Int) :
    Check_GST m n = Except.error "NameError: name HilbGeommm is not defined" :=
  rfl

/-- C5: for `(m,n) = (1,1)` the basis has exactly one vector in grade 0
and one in grade 1, and `gHodge(1,1)` is the single 1-by-1 identity
matrix, but `Check_GST(1,1)` raises `NameError` instead of returning
`true`. -/
theorem claim_C5_small_case :
    B 1 1 = [[[0]], [[1]]] ∧
    gHodge 1 1 = Except.ok [[[1]]] ∧
    Check_GST 1 1 =
      Except.error "NameError: name HilbGeommm is not defined" :=
  ⟨by decide, rfl, rfl⟩

/-- C2 counterexample: for `r = [1]` the weight `1` is not congruent to
`1` modulo the length in the sense of the claim (`1 % 1 = 0`, not `1`),
yet `adeg([1])` raises nothing and returns `0`: the source tests
`(p-1) % n != 0`, which never holds for `n = 1`. -/
theorem claim_C2_counterexample :
    adeg [1] none none = Except.ok 0 ∧ weight [1] % [1].length ≠ 1 := by
  constructor
  · have hT : Tam 0 1 = [] := by decide
    have hw : weight [1] = 1 := by decide
    have hm : (((1 : Nat) : Int) - 1).ediv ((1 : Nat) : Int) = 0 := by decide
    have hs : srange 1 0 = [] := by decide
    unfold adeg
    simp only [List.length_cons, List.length_nil, hw]
    norm_num [hm, hT, hs]
  · decide

/-- C2 as amended: for every non-empty `r`, `gdeg r` raises exactly the
`ValueError` when the weight is not a multiple of the length and
otherwise returns the Kostka number of the rectangular shape `[n]*m`
with content `mu(r)`; `adeg r` raises exactly the `ValueError` when
`weight(r) - 1` is not a multiple of the length (the congruence
`weight ≡ 1 (mod length)` with the Python `%`), and otherwise returns
a rational number; no other error occurs either way. -/
theorem claim_C2_degree_error_conditions (r : List Nat) (hr : r ≠ []) :
    (gdeg r = Except.error "ValueError: The weight must be a multiple of the length"
        ↔ ¬ r.length ∣ weight r) ∧
    (r.length ∣ weight r →
      gdeg r = Except.ok
        (kostka (List.replicate (weight r / r.length) r.length) (muPart r))) ∧
    (adeg r none none =
        Except.error "ValueError: The weight must be congruent to one modulo the length"
        ↔ ¬ (r.length : Int) ∣ ((weight r : Int) - 1)) ∧
    ((r.length : Int) ∣ ((weight r : Int) - 1) →
      ∃ q : Rat, adeg r none none = Except.ok q) := by
  have hn : r.length ≠ 0 := fun h => hr (List.length_eq_zero.mp h)
  have hmod : r.length ∣ weight r ↔ weight r % r.length = 0 :=
    Nat.dvd_iff_mod_eq_zero
  have hmodZ : (r.length : Int) ∣ ((weight r : Int) - 1) ↔
      ((weight r : Int) - 1).emod (r.length : Int) = 0 :=
    Int.dvd_iff_emod_eq_zero
  refine ⟨?_, ?_, ?_, ?_⟩
  · unfold gdeg
    rw [if_neg hn]
    by_cases h : weight r % r.length = 0
    · rw [if_neg (not_not_intro h)]
      simp [hmod, h]
    · rw [if_pos h]
      simp [hmod, h]
  · intro h
    unfold gdeg
    rw [if_neg hn, if_neg (not_not_intro (hmod.mp h))]
  · unfold adeg
    rw [if_neg hn]
    by_cases h : ((weight r : Int) - 1).emod (r.length : Int) = 0
    · rw [if_neg (not_not_intro h)]
      simp [hmodZ.mpr h]
    · rw [if_pos h]
      simp only [iff_true_intro rfl, true_iff]
      exact fun hd => h (hmodZ.mp hd)
  · intro h
    unfold adeg
    rw [if_neg hn, if_neg (not_not_intro (hmodZ.mp h))]
    exact ⟨_, rfl⟩

/-- Witness for C2 at the concrete input `r = [1]`. -/
theorem claim_C2_witness :
    (([1] : List Nat) ≠ []) ∧
    ((gdeg [1] = Except.error "ValueError: The weight must be a multiple of the length"
        ↔ ¬ [1].length ∣ weight [1]) ∧
    ([1].length ∣ weight [1] →
      gdeg [1] = Except.ok
        (kostka (List.replicate (weight [1] / [1].length) [1].length) (muPart [1]))) ∧
    (adeg [1] none none =
        Except.error "ValueError: The weight must be congruent to one modulo the length"
        ↔ ¬ ([1].length : Int) ∣ ((weight [1] : Int) - 1)) ∧
    (([1].length : Int) ∣ ((weight [1] : Int) - 1) →
      ∃ q : Rat, adeg [1] none none = Except.ok q)) :=
  ⟨by decide, claim_C2_degree_error_conditions [1] (by decide)⟩

/-- C3 counterexample: `gdeg` has no auxiliary-table parameters, so a
call passing the tables `T = Tam(m,n)` and `H = harm_list(m+n-1)` (here
`r = [2]`, `n = 1`, `m = 2`) is a `TypeError` and not the value `1`
that the plain call returns, although `r = [2]` satisfies the weight
precondition of `gdeg`. -/
theorem claim_C3_counterexample :
    gdeg_with_tables [2] (some (Tam 2 1)) (some (harm_list 2)) =
      Except.error "TypeError: gdeg() takes 1 positional argument but 3 were given" ∧
    gdeg [2] = Except.ok 1 ∧ weight [2] % [2].length = 0 :=
  ⟨rfl, rfl, by decide⟩

/-- C3 as amended: only `adeg` accepts the optional precomputed tables;
for every vector satisfying its weight precondition, the value computed
with `T = Tam(m,n)` and `H = harm_list(m+n-1)` supplied (with
`n = len(r)` and `m = (weight(r)-1)//n`) equals the value computed with
the tables omitted.  `gdeg` takes no table arguments at all. -/
theorem claim_C3_adeg_tables (r : List Nat) (hr : r ≠ [])
    (hw : ((weight r : Int) - 1).emod (r.length : Int) = 0) :
    adeg r (some (Tam (((weight r : Int) - 1).ediv (r.length : Int)) (r.length : Int)))
        (some (harm_list ((((weight r : Int) - 1).ediv (r.length : Int)) + (r.length : Int) - 1))) =
      adeg r none none :=
  rfl

/-- Witness for C3 at the concrete input `r = [1]`. -/
theorem claim_C3_witness :
    (([1] : List Nat) ≠ []) ∧
    ((weight [1] : Int) - 1).emod ([1].length : Int) = 0 ∧
    adeg [1] (some (Tam (((weight [1] : Int) - 1).ediv ([1].length : Int)) ([1].length : Int)))
        (some (harm_list ((((weight [1] : Int) - 1).ediv ([1].length : Int)) + ([1].length : Int) - 1))) =
      adeg [1] none none :=
  ⟨by decide, by decide, claim_C3_adeg_tables [1] (by decide) (by decide)⟩

/-- Weight computed from position `c` onwards: entry `i` of the list
counts with multiplier `c + i + 1`.  Recursion form of `weight`. -/
def wfrom (c : Nat) : Vec → Nat
  | [] => 0
  | a :: t => a * (c + 1) + wfrom (c + 1) t

theorem wfrom_spec (v : Vec) :
    ∀ c, ((List.range v.length).map (fun k => v.getD k 0 * (c + k + 1))).sum
      = wfrom c v := by
  induction v with
  | nil => intro c; rfl
  | cons a t ih =>
    intro c
    rw [List.length_cons, List.range_succ_eq_map, List.map_cons, List.map_map,
      List.sum_cons, wfrom]
    have : (List.map ((fun k => (a :: t).getD k 0 * (c + k + 1)) ∘ Nat.succ)
        (List.range t.length)).sum
        = (List.map (fun k => t.getD k 0 * ((c + 1) + k + 1))
            (List.range t.length)).sum := by
      apply congrArg
      apply List.map_congr_left
      intro k _
      simp only [Function.comp_apply, List.getD_cons_succ, Nat.succ_eq_add_one]
      ring
    rw [this, ih (c + 1)]
    simp [List.getD_cons_zero]

theorem weight_eq_wfrom (v : Vec) : weight v = wfrom 0 v := by
  have h := wfrom_spec v 0
  rw [← h]
  unfold weight
  apply congrArg
  apply List.map_congr_left
  intro k _
  norm_num

theorem wfrom_append (xs ys : Vec) :
    ∀ c, wfrom c (xs ++ ys) = wfrom c xs + wfrom (c + xs.length) ys := by
  induction xs with
  | nil => intro c; simp [wfrom]
  | cons a t ih =>
    intro c
    rw [List.cons_append, wfrom, wfrom, ih (c + 1)]
    rw [List.length_cons]
    ring_nf

theorem wfrom_replicate_zero (k c : Nat) : wfrom c (List.replicate k 0) = 0 := by
  induction k generalizing c with
  | zero => rfl
  | succ k ih =>
    rw [List.replicate_succ, wfrom, ih]
    simp

theorem wfrom_le (v : Vec) : ∀ c, wfrom c v ≤ (c + v.length) * v.sum := by
  induction v with
  | nil => intro c; simp [wfrom]
  | cons a t ih =>
    intro c
    rw [wfrom, List.length_cons, List.sum_cons]
    have h1 : a * (c + 1) ≤ (c + (t.length + 1)) * a := by
      rw [Nat.mul_comm (c + (t.length + 1)) a]
      exact Nat.mul_le_mul (Nat.le_refl a) (by omega)
    have h2 : wfrom (c + 1) t ≤ (c + (t.length + 1)) * t.sum := by
      have := ih (c + 1)
      calc wfrom (c + 1) t ≤ (c + 1 + t.length) * t.sum := this
        _ = (c + (t.length + 1)) * t.sum := by ring_nf
    calc a * (c + 1) + wfrom (c + 1) t
        ≤ (c + (t.length + 1)) * a + (c + (t.length + 1)) * t.sum := by
          exact Nat.add_le_add h1 h2
      _ = (c + (t.length + 1)) * (a + t.sum) := by ring

theorem mem_IntegerVectors : ∀ (n j : Nat) (v : Vec),
    v ∈ IntegerVectors j n ↔ v.length = n ∧ v.sum = j := by
  intro n
  induction n with
  | zero =>
    intro j v
    unfold IntegerVectors
    by_cases hj : j = 0
    · subst hj
      simp [List.length_eq_zero]
      intro h
      subst h
      simp
    · simp [hj, List.length_eq_zero]
      intro h
      subst h
      simp [Ne.symm hj]
  | succ n ih =>
    intro j v
    unfold IntegerVectors
    simp only [List.mem_flatMap, List.mem_map, List.mem_range]
    constructor
    · rintro ⟨i, hi, w, hw, rfl⟩
      rcases (ih i w).mp hw with ⟨hl, hs⟩
      refine ⟨by simp [hl], ?_⟩
      simp [hs]
      omega
    · intro ⟨hl, hs⟩
      cases v with
      | nil => simp at hl
      | cons a t =>
        refine ⟨t.sum, ?_, t, (ih t.sum t).mpr ⟨by simpa using hl, rfl⟩, ?_⟩
        · simp at hs
          omega
        · simp at hs
          have : a = j - t.sum := by omega
          rw [this]

theorem insertW_perm (x : Vec) (l : List Vec) :
    List.Perm (insertW x l) (x :: l) := by
  induction l with
  | nil => exact List.Perm.refl _
  | cons y ys ih =>
    rw [insertW]
    by_cases h : weight y < weight x
    · rw [if_pos h]
      exact List.Perm.trans (List.Perm.cons y ih) (List.Perm.swap x y ys)
    · rw [if_neg h]

theorem sortW_perm (l : List Vec) : List.Perm (sortW l) l := by
  induction l with
  | nil => exact List.Perm.refl _
  | cons x xs ih =>
    rw [sortW]
    exact List.Perm.trans (insertW_perm x (sortW xs)) (List.Perm.cons x ih)

theorem insertW_sorted (x : Vec) (l : List Vec)
    (h : l.Pairwise (fun a b => weight a ≤ weight b)) :
    (insertW x l).Pairwise (fun a b => weight a ≤ weight b) := by
  induction l with
  | nil => simp [insertW]
  | cons y ys ih =>
    rw [insertW]
    rcases List.pairwise_cons.mp h with ⟨hy, hys⟩
    by_cases hw : weight y < weight x
    · rw [if_pos hw]
      refine List.pairwise_cons.mpr ⟨?_, ih hys⟩
      intro b hb
      rcases List.mem_cons.mp ((insertW_perm x ys).mem_iff.mp hb) with rfl | hbys
      · exact Nat.le_of_lt hw
      · exact hy b hbys
    · rw [if_neg hw]
      refine List.pairwise_cons.mpr ⟨?_, h⟩
      intro b hb
      rcases List.mem_cons.mp hb with rfl | hbys
      · exact Nat.le_of_not_lt hw
      · exact Nat.le_trans (Nat.le_of_not_lt hw) (hy b hbys)

theorem sortW_sorted (l : List Vec) :
    (sortW l).Pairwise (fun a b => weight a ≤ weight b) := by
  induction l with
  | nil => simp [sortW]
  | cons x xs ih => exact insertW_sorted x (sortW xs) ih

theorem IV_zero (n : Nat) : IntegerVectors 0 n = [List.replicate n 0] := by
  induction n with
  | zero => rfl
  | succ n ih =>
    have h1 : List.range 1 = [0] := rfl
    rw [IntegerVectors, h1, List.flatMap_cons, List.flatMap_nil, ih]
    rfl

theorem length_IntegerVectors_succ (j n : Nat) :
    (IntegerVectors j (n + 1)).length =
      ((List.range (j + 1)).map (fun i => (IntegerVectors i n).length)).sum := by
  rw [IntegerVectors, List.length_flatMap]
  apply congrArg
  apply List.map_congr_left
  intro i _
  simp

theorem totIV (n : Nat) : ∀ m : Nat,
    ((List.range (m + 1)).map (fun j => (IntegerVectors j n).length)).sum
      = Nat.choose (m + n) n := by
  induction n with
  | zero =>
    intro m
    induction m with
    | zero => rfl
    | succ m ihm =>
      rw [List.range_succ, List.map_append, List.sum_append, ihm]
      simp [IntegerVectors]
  | succ n ih =>
    intro m
    induction m with
    | zero =>
      have h1 : List.range 1 = [0] := rfl
      rw [h1, List.map_cons, List.map_nil, List.sum_cons,
        List.sum_nil, IV_zero]
      simp [Nat.choose_self]
    | succ m ihm =>
      rw [List.range_succ, List.map_append, List.sum_append, ihm]
      simp only [List.map_cons, List.map_nil, List.sum_cons, List.sum_nil]
      rw [length_IntegerVectors_succ, ih (m + 1)]
      have hp : (m + 1 + (n + 1)).choose (n + 1)
          = (m + (n + 1)).choose n + (m + (n + 1)).choose (n + 1) := by
        have := Nat.choose_succ_succ (m + (n + 1)) n
        have harg : m + 1 + (n + 1) = m + (n + 1) + 1 := by omega
        rw [harg, this]
      rw [hp]
      have harg2 : m + 1 + n = m + (n + 1) := by omega
      rw [harg2]
      omega

theorem groupRuns_flatten : ∀ l : List Vec, (groupRuns l).flatten = l := by
  intro l
  induction l with
  | nil => rfl
  | cons x xs ih =>
    cases xs with
    | nil => rfl
    | cons y ys =>
      cases hg : groupRuns (y :: ys) with
      | nil =>
        rw [hg] at ih
        simp at ih
      | cons g gs =>
        rw [hg] at ih
        simp only [List.flatten_cons] at ih
        by_cases hw : weight x = weight y
        · simp only [groupRuns, hg, if_pos hw, List.flatten_cons,
            List.cons_append]
          rw [ih]
        · simp only [groupRuns, hg, if_neg hw, List.flatten_cons,
            List.singleton_append]
          rw [ih]

theorem groupRuns_head : ∀ (xs : List Vec) (x : Vec),
    ∃ g gs, groupRuns (x :: xs) = (x :: g) :: gs := by
  intro xs
  induction xs with
  | nil => exact fun x => ⟨[], [], rfl⟩
  | cons y ys ih =>
    intro x
    rcases ih y with ⟨g, gs, hg⟩
    by_cases hw : weight x = weight y
    · exact ⟨y :: g, gs, by simp only [groupRuns, hg, if_pos hw]⟩
    · exact ⟨[], (y :: g) :: gs, by simp only [groupRuns, hg, if_neg hw]⟩

theorem groupRuns_ne_nil : ∀ (l : List Vec), ∀ g ∈ groupRuns l, g ≠ [] := by
  intro l
  induction l with
  | nil => intro g hg; simp [groupRuns] at hg
  | cons x xs ih =>
    cases xs with
    | nil =>
      intro g hg
      simp only [groupRuns, List.mem_singleton] at hg
      subst hg
      simp
    | cons y ys =>
      intro g hg
      cases hgr : groupRuns (y :: ys) with
      | nil =>
        rcases groupRuns_head ys y with ⟨g', gs', h'⟩
        rw [h'] at hgr
        exact absurd hgr (by simp)
      | cons g0 gs0 =>
        by_cases hw : weight x = weight y
        · rw [groupRuns, hgr] at hg
          simp only [if_pos hw] at hg
          rcases List.mem_cons.mp hg with rfl | h2
          · simp
          · exact ih _ (by rw [hgr]; exact List.mem_cons_of_mem _ h2)
        · rw [groupRuns, hgr] at hg
          simp only [if_neg hw] at hg
          rcases List.mem_cons.mp hg with rfl | h2
          · simp
          · exact ih _ (by rw [hgr]; exact h2)

theorem groupRuns_weight_head : ∀ (l : List Vec), ∀ g ∈ groupRuns l,
    ∀ a ∈ g, weight a = weight (g.headD []) := by
  intro l
  induction l with
  | nil => intro g hg; simp [groupRuns] at hg
  | cons x xs ih =>
    cases xs with
    | nil =>
      intro g hg a ha
      simp only [groupRuns, List.mem_singleton] at hg
      subst hg
      simp only [List.mem_singleton] at ha
      subst ha
      rfl
    | cons y ys =>
      intro g hg a ha
      rcases groupRuns_head ys y with ⟨g', gs', hgr⟩
      by_cases hw : weight x = weight y
      · rw [groupRuns, hgr] at hg
        simp only [if_pos hw] at hg
        rcases List.mem_cons.mp hg with rfl | h2
        · simp only [List.headD_cons]
          rcases List.mem_cons.mp ha with rfl | h3
          · rfl
          · have := ih ((y :: g')) (by rw [hgr]; exact List.mem_cons_self _ _) a h3
            simpa [hw] using this
        · exact ih g (by rw [hgr]; exact List.mem_cons_of_mem _ h2) a ha
      · rw [groupRuns, hgr] at hg
        simp only [if_neg hw] at hg
        rcases List.mem_cons.mp hg with rfl | h2
        · simp only [List.headD_cons]
          rcases List.mem_singleton.mp ha with rfl
          rfl
        · exact ih g (by rw [hgr]; exact h2) a ha

theorem groupRuns_heads_lt : ∀ (l : List Vec),
    l.Pairwise (fun a b => weight a ≤ weight b) →
    ((groupRuns l).map (fun g => weight (g.headD []))).Pairwise
      (fun a b => a < b) := by
  intro l
  induction l with
  | nil => intro _; simp [groupRuns]
  | cons x xs ih =>
    cases xs with
    | nil => intro _; simp [groupRuns]
    | cons y ys =>
      intro hs
      rcases List.pairwise_cons.mp hs with ⟨hx, hs'⟩
      rcases groupRuns_head ys y with ⟨g', gs', hgr⟩
      have ihh := ih hs'
      rw [hgr] at ihh
      by_cases hw : weight x = weight y
      · rw [groupRuns, hgr]
        simp only [if_pos hw, List.map_cons, List.headD_cons] at ihh ⊢
        rcases List.pairwise_cons.mp ihh with ⟨hyl, hrest⟩
        refine List.pairwise_cons.mpr ⟨?_, hrest⟩
        intro b hb
        rw [hw]
        exact hyl b hb
      · rw [groupRuns, hgr]
        simp only [if_neg hw, List.map_cons, List.headD_cons] at ihh ⊢
        refine List.pairwise_cons.mpr ⟨?_, ihh⟩
        intro b hb
        rcases List.mem_cons.mp hb with rfl | hb2
        · exact Nat.lt_of_le_of_ne (hx y (List.mem_cons_self y ys)) hw
        · rcases List.pairwise_cons.mp ihh with ⟨hyl, _⟩
          exact Nat.lt_trans
            (Nat.lt_of_le_of_ne (hx y (List.mem_cons_self y ys)) hw)
            (hyl b hb2)

theorem mem_srange (a b x : Int) : x ∈ srange a b ↔ a ≤ x ∧ x ≤ b := by
  rw [srange, List.mem_map]
  constructor
  · rintro ⟨i, hi, rfl⟩
    rw [List.mem_range] at hi
    omega
  · intro h
    refine ⟨(x - a).toNat, ?_, by omega⟩
    rw [List.mem_range]
    omega

theorem l0_eq (m n : Int) (hm : 0 ≤ m) :
    (srange 0 m).flatMap (fun j => IntegerVectors j.toNat n.toNat)
      = (List.range (m.toNat + 1)).flatMap
          (fun j => IntegerVectors j n.toNat) := by
  rw [srange, List.flatMap_map]
  have harg : (m - 0 + 1).toNat = m.toNat + 1 := by omega
  rw [harg]
  apply List.flatMap_congr
  intro i _
  have : ((0 : Int) + (i : Int)).toNat = i := by omega
  rw [this]

/-- C6: the total number of basis vectors across all grades of `B(m,n)`
is the binomial coefficient `C(m+n, n)`, for all `m, n >= 0`. -/
theorem claim_C6_basis_count (m n : Int) (hm : 0 ≤ m) (hn : 0 ≤ n) :
    ((B m n).map List.length).sum = Nat.choose (m.toNat + n.toNat) n.toNat := by
  have hneg : ¬ (m < 0 ∨ n < 0) := by omega
  unfold B
  rw [if_neg hneg, ← List.length_flatten, groupRuns_flatten,
    (sortW_perm _).length_eq, l0_eq m n hm, List.length_flatMap]
  have := totIV n.toNat m.toNat
  simpa [Function.comp] using this

/-- Witness for C6 at the concrete input `(m,n) = (2,2)`. -/
theorem claim_C6_witness :
    (0 : Int) ≤ 2 ∧
      ((B 2 2).map List.length).sum
        = Nat.choose ((2 : Int).toNat + (2 : Int).toNat) (2 : Int).toNat :=
  ⟨by decide, claim_C6_basis_count 2 2 (by decide) (by decide)⟩

theorem headD_mem {g : List Vec} (h : g ≠ []) : g.headD [] ∈ g := by
  cases g with
  | nil => exact absurd rfl h
  | cons a t => exact List.mem_cons_self a t

theorem groupRuns_heads_mem (l : List Vec) (w : Nat) :
    w ∈ (groupRuns l).map (fun g => weight (g.headD []))
      ↔ ∃ v ∈ l, weight v = w := by
  constructor
  · intro h
    rcases List.mem_map.mp h with ⟨g, hg, rfl⟩
    refine ⟨g.headD [], ?_, rfl⟩
    rw [← groupRuns_flatten l]
    exact List.mem_flatten.mpr ⟨g, hg, headD_mem (groupRuns_ne_nil l g hg)⟩
  · rintro ⟨v, hv, rfl⟩
    rw [← groupRuns_flatten l] at hv
    rcases List.mem_flatten.mp hv with ⟨g, hg, hvg⟩
    exact List.mem_map.mpr ⟨g, hg, (groupRuns_weight_head l g hg v hvg).symm⟩

theorem mem_l0 (m n : Int) (hm : 0 ≤ m) (v : Vec) :
    v ∈ (srange 0 m).flatMap (fun j => IntegerVectors j.toNat n.toNat)
      ↔ v.length = n.toNat ∧ v.sum ≤ m.toNat := by
  rw [List.mem_flatMap]
  constructor
  · rintro ⟨j, hj, hv⟩
    rcases (mem_IntegerVectors n.toNat j.toNat v).mp hv with ⟨h1, h2⟩
    rcases (mem_srange 0 m j).mp hj with ⟨h3, h4⟩
    exact ⟨h1, by omega⟩
  · rintro ⟨h1, h2⟩
    refine ⟨(v.sum : Int), (mem_srange 0 m _).mpr ⟨by omega, by omega⟩, ?_⟩
    exact (mem_IntegerVectors n.toNat _ v).mpr ⟨h1, by omega⟩

theorem sum_replicate_zero (k : Nat) : (List.replicate k (0 : Nat)).sum = 0 := by
  induction k with
  | zero => rfl
  | succ k ih => rw [List.replicate_succ, List.sum_cons, ih]

theorem weight_surj (mN nN : Nat) (hm : 1 ≤ mN) (hn : 1 ≤ nN) (w : Nat)
    (hw : w ≤ mN * nN) :
    ∃ v : Vec, v.length = nN ∧ v.sum ≤ mN ∧ weight v = w := by
  obtain ⟨q, hq⟩ : ∃ q, w / nN = q := ⟨_, rfl⟩
  obtain ⟨r, hr⟩ : ∃ r, w % nN = r := ⟨_, rfl⟩
  have hqs : nN * q + r = w := by rw [← hq, ← hr]; exact Nat.div_add_mod w nN
  have hrn : r < nN := by rw [← hr]; exact Nat.mod_lt w (by omega)
  have hqm : q ≤ mN := by
    rw [← hq]
    have h1 : w / nN ≤ (mN * nN) / nN := Nat.div_le_div_right hw
    have h2 : (mN * nN) / nN = mN := Nat.mul_div_cancel mN (by omega)
    omega
  by_cases hs : r = 0
  · refine ⟨List.replicate (nN - 1) 0 ++ [q], ?_, ?_, ?_⟩
    · rw [List.length_append, List.length_replicate]
      simp
      omega
    · rw [List.sum_append, sum_replicate_zero]
      simpa using hqm
    · rw [weight_eq_wfrom, wfrom_append, wfrom_replicate_zero,
        List.length_replicate]
      simp only [wfrom]
      have harg : 0 + (nN - 1) + 1 = nN := by omega
      rw [harg, Nat.mul_comm q nN]
      omega
  · refine ⟨List.replicate (r - 1) 0 ++ [1] ++
      (List.replicate (nN - r - 1) 0 ++ [q]), ?_, ?_, ?_⟩
    · simp only [List.length_append, List.length_replicate, List.length_cons,
        List.length_nil]
      omega
    · simp only [List.sum_append, sum_replicate_zero, List.sum_cons,
        List.sum_nil]
      have hqlt : q < mN := by
        by_contra hcon
        have h5 : mN ≤ q := by omega
        have h3 : mN * nN ≤ q * nN := Nat.mul_le_mul_right nN h5
        rw [Nat.mul_comm q nN] at h3
        omega
      omega
    · rw [weight_eq_wfrom]
      simp only [wfrom_append, wfrom_replicate_zero, List.length_append,
        List.length_replicate, List.length_cons, List.length_nil]
      simp only [wfrom]
      have h1 : 0 + (r - 1) + 1 = r := by omega
      have h2 : 0 + (r - 1 + 1) + (nN - r - 1) + 1 = nN := by omega
      rw [h1, h2, Nat.one_mul, Nat.mul_comm q nN]
      omega

theorem weight_le_of_basis {v : Vec} {mN nN : Nat} (hl : v.length = nN)
    (hs : v.sum ≤ mN) : weight v ≤ mN * nN := by
  rw [weight_eq_wfrom]
  have h1 := wfrom_le v 0
  rw [hl] at h1
  calc wfrom 0 v ≤ (0 + nN) * v.sum := h1
    _ = nN * v.sum := by rw [Nat.zero_add]
    _ ≤ nN * mN := Nat.mul_le_mul_left nN hs
    _ = mN * nN := Nat.mul_comm nN mN

theorem B_heads (m n : Int) (hm : 1 ≤ m) (hn : 1 ≤ n) :
    (B m n).map (fun g => weight (g.headD []))
      = List.range (m.toNat * n.toNat + 1) := by
  have hneg : ¬ (m < 0 ∨ n < 0) := by omega
  unfold B
  rw [if_neg hneg]
  have hsorted := groupRuns_heads_lt _
    (sortW_sorted ((srange 0 m).flatMap
      (fun j => IntegerVectors j.toNat n.toNat)))
  have hmem : ∀ w, w ∈ (groupRuns (sortW ((srange 0 m).flatMap
      (fun j => IntegerVectors j.toNat n.toNat)))).map
        (fun g => weight (g.headD []))
      ↔ w < m.toNat * n.toNat + 1 := by
    intro w
    rw [groupRuns_heads_mem]
    constructor
    · rintro ⟨v, hv, rfl⟩
      have hv0 := (sortW_perm _).mem_iff.mp hv
      rcases (mem_l0 m n (by omega) v).mp hv0 with ⟨h1, h2⟩
      have := weight_le_of_basis h1 h2
      omega
    · intro hwlt
      rcases weight_surj m.toNat n.toNat (by omega) (by omega) w
          (by omega) with ⟨v, h1, h2, h3⟩
      exact ⟨v, (sortW_perm _).mem_iff.mpr
        ((mem_l0 m n (by omega) v).mpr ⟨h1, h2⟩), h3⟩
  haveI : IsAntisymm Nat (fun a b => a < b) :=
    ⟨fun a b h1 h2 => absurd h1 (Nat.lt_asymm h2)⟩
  apply List.eq_of_perm_of_sorted (r := fun a b => a < b)
  · apply (List.perm_ext_iff_of_nodup ?_ ?_).mpr
    · intro a
      rw [hmem a, List.mem_range]
    · exact hsorted.imp (fun h => Nat.ne_of_lt h)
    · exact List.nodup_range _
  · exact hsorted
  · exact List.pairwise_lt_range _

theorem getD_mem {α : Type _} (l : List α) (p : Nat) (d : α)
    (hp : p < l.length) : l.getD p d ∈ l := by
  rw [List.getD_eq_getElem _ _ hp]
  exact List.getElem_mem hp

theorem getD_map_headW (L : List (List Vec)) (p : Nat) (hp : p < L.length) :
    (L.map (fun g => weight (g.headD []))).getD p 0
      = weight ((L.getD p []).headD []) := by
  rw [List.getD_eq_getElem _ _ (by rw [List.length_map]; exact hp),
    List.getElem_map, List.getD_eq_getElem _ _ hp]

theorem getD_range (K p : Nat) (hp : p < K) : (List.range K).getD p 0 = p := by
  rw [List.getD_eq_getElem _ _ (by rw [List.length_range]; exact hp),
    List.getElem_range]

theorem mem_iff_getD {α : Type _} {a : α} {l : List α} (d : α) :
    a ∈ l ↔ ∃ q, q < l.length ∧ l.getD q d = a := by
  rw [List.mem_iff_getElem]
  constructor
  · rintro ⟨q, hq, rfl⟩
    exact ⟨q, hq, List.getD_eq_getElem _ _ hq⟩
  · rintro ⟨q, hq, h⟩
    exact ⟨q, hq, by rw [← List.getD_eq_getElem _ _ hq]; exact h⟩

/-- For `m, n >= 1`, `B(m,n)` has exactly `m*n + 1` grades, none empty,
and the `p`-th grade consists exactly of the length-`n` vectors of
coordinate sum at most `m` and weight `p`. -/
theorem B_grades (m n : Int) (hm : 1 ≤ m) (hn : 1 ≤ n) :
    (B m n).length = m.toNat * n.toNat + 1 ∧
    ∀ p, p < (B m n).length →
      ((B m n).getD p [] ≠ [] ∧
       ∀ v : Vec, v ∈ (B m n).getD p [] ↔
         (v.length = n.toNat ∧ v.sum ≤ m.toNat ∧ weight v = p)) := by
  have hneg : ¬ (m < 0 ∨ n < 0) := by omega
  have hB : B m n = groupRuns (sortW ((srange 0 m).flatMap
      (fun j => IntegerVectors j.toNat n.toNat))) := by
    unfold B
    rw [if_neg hneg]
  have hheads := B_heads m n hm hn
  rw [hB] at hheads
  have hlen : (groupRuns (sortW ((srange 0 m).flatMap
      (fun j => IntegerVectors j.toNat n.toNat)))).length
        = m.toNat * n.toNat + 1 := by
    have h := congrArg List.length hheads
    rwa [List.length_map, List.length_range] at h
  rw [hB]
  refine ⟨hlen, ?_⟩
  intro p hp
  have hgmem := getD_mem _ p ([] : List Vec) hp
  have hheadp : weight (((groupRuns (sortW ((srange 0 m).flatMap
      (fun j => IntegerVectors j.toNat n.toNat)))).getD p []).headD []) = p := by
    rw [← getD_map_headW _ p hp, hheads, getD_range _ _ (by omega)]
  constructor
  · exact groupRuns_ne_nil _ _ hgmem
  · intro v
    constructor
    · intro hv
      have hw : weight v = p := by
        rw [← hheadp]
        exact groupRuns_weight_head _ _ hgmem v hv
      have hvS : v ∈ sortW ((srange 0 m).flatMap
          (fun j => IntegerVectors j.toNat n.toNat)) := by
        rw [← groupRuns_flatten (sortW _)]
        exact List.mem_flatten.mpr ⟨_, hgmem, hv⟩
      have hv0 := (sortW_perm _).mem_iff.mp hvS
      rcases (mem_l0 m n (by omega) v).mp hv0 with ⟨h1, h2⟩
      exact ⟨h1, h2, hw⟩
    · rintro ⟨h1, h2, h3⟩
      have hvS : v ∈ sortW ((srange 0 m).flatMap
          (fun j => IntegerVectors j.toNat n.toNat)) :=
        (sortW_perm _).mem_iff.mpr ((mem_l0 m n (by omega) v).mpr ⟨h1, h2⟩)
      rw [← groupRuns_flatten (sortW _)] at hvS
      rcases List.mem_flatten.mp hvS with ⟨g, hgm, hvg⟩
      rcases (mem_iff_getD ([] : List Vec)).mp hgm with ⟨q, hq, hgq⟩
      have hheadq : weight (((groupRuns (sortW ((srange 0 m).flatMap
          (fun j => IntegerVectors j.toNat n.toNat)))).getD q []).headD [])
            = q := by
        rw [← getD_map_headW _ q hq, hheads, getD_range _ _ (by omega)]
      have h5 : weight v = q := by
        rw [← hheadq, hgq]
        exact groupRuns_weight_head _ g hgm v hvg
      have hpq : q = p := by omega
      rw [← hgq, hpq] at hvg
      exact hvg

/-- C10: for `m, n >= 1`, `B(m,n)` has exactly `m*n + 1` grades, none
empty, and the `p`-th grade consists exactly of the length-`n` vectors
of coordinate sum at most `m` and weight `p`: position in the list
equals weight, which is the indexing `Vgeom` and `Varith` rely on. -/
theorem claim_C10_grade_indexing (m n : Int) (hm : 1 ≤ m) (hn : 1 ≤ n) :
    (B m n).length = m.toNat * n.toNat + 1 ∧
    ∀ p, p < (B m n).length →
      ((B m n).getD p [] ≠ [] ∧
       ∀ v : Vec, v ∈ (B m n).getD p [] ↔
         (v.length = n.toNat ∧ v.sum ≤ m.toNat ∧ weight v = p)) :=
  B_grades m n hm hn

/-- Witness for C10 at the concrete input `(m,n) = (1,1)`. -/
theorem claim_C10_witness :
    ((1 : Int) ≤ 1) ∧
    ((B 1 1).length = (1 : Int).toNat * (1 : Int).toNat + 1 ∧
    ∀ p, p < (B 1 1).length →
      ((B 1 1).getD p [] ≠ [] ∧
       ∀ v : Vec, v ∈ (B 1 1).getD p [] ↔
         (v.length = (1 : Int).toNat ∧ v.sum ≤ (1 : Int).toNat ∧
           weight v = p))) :=
  ⟨by decide, claim_C10_grade_indexing 1 1 (by decide) (by decide)⟩

/-- Entry `(i,j)` of a pool-index matrix, with the default reads the
embedding uses everywhere. -/
def ent (A : IdxMat) (i j : Nat) : Nat := (A.getD i []).getD j 0

theorem set_of_le {α : Type _} (l : List α) (i : Nat) (v : α)
    (h : l.length ≤ i) : l.set i v = l := by
  induction l generalizing i with
  | nil => rfl
  | cons a t ih =>
    cases i with
    | zero => simp at h
    | succ i =>
      rw [List.set_cons_succ]
      rw [ih i (by simpa using h)]

theorem getD_set_self {α : Type _} (l : List α) (i : Nat) (v d : α)
    (h : i < l.length) : (l.set i v).getD i d = v := by
  rw [List.getD_eq_getElem?_getD, List.getElem?_set_self (by exact h)]
  rfl

theorem getD_set_ne {α : Type _} (l : List α) (i j : Nat) (v d : α)
    (h : i ≠ j) : (l.set i v).getD j d = l.getD j d := by
  rw [List.getD_eq_getElem?_getD, List.getElem?_set_ne h,
    ← List.getD_eq_getElem?_getD]

theorem length_getD_set {α : Type _} (l : List (List α)) (i k : Nat)
    (v : List α) (hv : v.length = (l.getD i []).length) :
    ((l.set i v).getD k []).length = (l.getD k []).length := by
  by_cases hik : i = k
  · subst hik
    by_cases hi : i < l.length
    · rw [getD_set_self l i v [] hi, hv]
    · rw [set_of_le l i v (by omega)]
  · rw [getD_set_ne l i k v [] hik]

theorem length_setM (A : IdxMat) (i j v : Nat) :
    (setM A i j v).length = A.length := List.length_set A i _

theorem row_length_setM (A : IdxMat) (i j v k : Nat) :
    ((setM A i j v).getD k []).length = (A.getD k []).length := by
  unfold setM
  exact length_getD_set A i k _ (by rw [List.length_set])

theorem ent_setM_self (A : IdxMat) (i j v : Nat) (h1 : i < A.length)
    (h2 : j < (A.getD i []).length) : ent (setM A i j v) i j = v := by
  unfold ent setM
  rw [getD_set_self A i _ [] h1]
  exact getD_set_self _ j v 0 h2

theorem ent_setM_ne (A : IdxMat) (i j v a b : Nat)
    (h : ¬ (a = i ∧ b = j)) : ent (setM A i j v) a b = ent A a b := by
  unfold ent setM
  by_cases hai : a = i
  · subst hai
    have hbj : b ≠ j := fun hb => h ⟨rfl, hb⟩
    by_cases hi : a < A.length
    · rw [getD_set_self A a _ [] hi, getD_set_ne _ j b v 0 (Ne.symm hbj)]
    · rw [set_of_le A a _ (by omega)]
  · rw [getD_set_ne A i a _ [] (Ne.symm hai)]

theorem length_set2 (A : IdxMat) (i j v : Nat) :
    (set2 A i j v).length = A.length := by
  unfold set2
  rw [length_setM, length_setM]

theorem row_length_set2 (A : IdxMat) (i j v k : Nat) :
    ((set2 A i j v).getD k []).length = (A.getD k []).length := by
  unfold set2
  rw [row_length_setM, row_length_setM]

theorem ent_set2_self (A : IdxMat) (i j v : Nat) (d : Nat)
    (hA : A.length = d) (hrows : ∀ k, k < d → (A.getD k []).length = d)
    (hi : i < d) (hj : j < d) :
    ent (set2 A i j v) i j = v ∧ ent (set2 A i j v) j i = v := by
  unfold set2
  have hji : ent (setM (setM A i j v) j i v) j i = v := by
    apply ent_setM_self
    · rw [length_setM]; omega
    · rw [row_length_setM]; rw [hrows j hj]; omega
  constructor
  · by_cases hij : i = j
    · subst hij
      exact hji
    · rw [ent_setM_ne _ j i v i j (fun hh => hij hh.1)]
      · apply ent_setM_self
        · omega
        · rw [hrows i hi]; omega
  · exact hji

theorem ent_set2_other (A : IdxMat) (i j v a b : Nat)
    (h1 : ¬ (a = i ∧ b = j)) (h2 : ¬ (a = j ∧ b = i)) :
    ent (set2 A i j v) a b = ent A a b := by
  unfold set2
  rw [ent_setM_ne _ j i v a b h2, ent_setM_ne _ i j v a b h1]

theorem length_setP (M : List IdxMat) (p : Nat) (f : IdxMat → IdxMat) :
    (setP M p f).length = M.length := List.length_set M p _

theorem getD_setP_self (M : List IdxMat) (p : Nat) (f : IdxMat → IdxMat)
    (hp : p < M.length) : (setP M p f).getD p [] = f (M.getD p []) :=
  getD_set_self M p _ [] hp

theorem getD_setP_ne (M : List IdxMat) (p q : Nat) (f : IdxMat → IdxMat)
    (h : p ≠ q) : (setP M p f).getD q [] = M.getD q [] :=
  getD_set_ne M p q _ [] h

/-- Two lists of matrices with the same outer length, the same row
counts and the same row lengths everywhere. -/
def SameShape (M N : List IdxMat) : Prop :=
  M.length = N.length ∧ ∀ p, (M.getD p []).length = (N.getD p []).length ∧
    ∀ k, ((M.getD p []).getD k []).length = ((N.getD p []).getD k []).length

theorem SameShape_refl (M : List IdxMat) : SameShape M M :=
  ⟨Eq.refl _, fun _ => ⟨Eq.refl _, fun _ => Eq.refl _⟩⟩

theorem SameShape.trans {M N K : List IdxMat} (h1 : SameShape M N)
    (h2 : SameShape N K) : SameShape M K := by
  refine ⟨h1.1.trans h2.1, fun p => ⟨(h1.2 p).1.trans (h2.2 p).1, fun k =>
    ((h1.2 p).2 k).trans ((h2.2 p).2 k)⟩⟩

theorem SameShape_setP_set2 (M : List IdxMat) (p i j v : Nat) :
    SameShape (setP M p (fun A => set2 A i j v)) M := by
  refine ⟨length_setP M p _, fun q => ?_⟩
  by_cases hpq : p = q
  · subst hpq
    by_cases hp : p < M.length
    · rw [getD_setP_self M p _ hp]
      exact ⟨length_set2 _ i j v, fun k => row_length_set2 _ i j v k⟩
    · unfold setP
      rw [set_of_le M p _ (by omega)]
      exact ⟨rfl, fun _ => rfl⟩
  · rw [getD_setP_ne M p q _ hpq]
    exact ⟨rfl, fun _ => rfl⟩

theorem vadd_comm (a b : Vec) : vadd a b = vadd b a := by
  unfold vadd
  by_cases h : a.length = b.length
  · rw [if_pos h, if_pos h.symm]
    apply congrArg
    apply List.zipWith_comm_of_comm
    intro x y
    exact Nat.add_comm x y
  · rw [if_neg h, if_neg (fun hh => h hh.symm)]

theorem vgComb_swap (L : List (List Vec)) (e : Vec) (nm : Nat)
    (p i j : Nat) : vgComb L e nm (p, i, j) = vgComb L e nm (p, j, i) := by
  dsimp only [vgComb]
  rw [vadd_comm]

theorem indexOf_append_left {α : Type _} [BEq α] [LawfulBEq α] (z : α)
    (l₁ l₂ : List α) (h : z ∈ l₁) :
    (l₁ ++ l₂).indexOf z = l₁.indexOf z := by
  induction l₁ with
  | nil => simp at h
  | cons b t ih =>
    rw [List.cons_append, List.indexOf_cons, List.indexOf_cons]
    cases hb : (b == z) with
    | true => rfl
    | false =>
      simp only [Bool.cond_false]
      have hzt : z ∈ t := by
        rcases List.mem_cons.mp h with rfl | h2
        · have hrfl : (z == z) = true := beq_self_eq_true z
          rw [hb] at hrfl
          exact Bool.noConfusion hrfl
        · exact h2
      rw [ih hzt]

theorem indexOf_append_new {α : Type _} [BEq α] [LawfulBEq α] (z : α)
    (l : List α) (h : z ∉ l) :
    (l ++ [z]).indexOf z = l.length := by
  induction l with
  | nil =>
    rw [List.nil_append, List.indexOf_cons]
    simp
  | cons b t ih =>
    rw [List.cons_append, List.indexOf_cons]
    have hb : (b == z) = false := by
      rw [Bool.eq_false_iff]
      intro hbz
      rw [beq_iff_eq] at hbz
      exact h (by rw [hbz]; exact List.mem_cons_self z t)
    rw [hb]
    simp only [Bool.cond_false, List.length_cons]
    rw [ih (fun h2 => h (List.mem_cons_of_mem b h2))]

theorem vgStep_ok {L : List (List Vec)} {e : Vec} {nm : Nat}
    {s s₂ : VgState} {t : Nat × Nat × Nat}
    (h : vgStep L e nm s t = Except.ok s₂) :
    ∃ z, vgComb L e nm t = Except.ok z ∧
      ((z ∈ s.1 ∧ s₂.1 = s.1) ∨ (z ∉ s.1 ∧ s₂.1 = s.1 ++ [z])) ∧
      s₂.2 = setP s.2 t.1
        (fun A => set2 A t.2.1 t.2.2 (s₂.1.indexOf z)) := by
  unfold vgStep at h
  cases hcomb : vgComb L e nm t with
  | error msg =>
    rw [hcomb] at h
    simp only [Bind.bind, Except.bind] at h
    exact Except.noConfusion h
  | ok z =>
    rw [hcomb] at h
    simp only [Bind.bind, Except.bind] at h
    by_cases hz : z ∈ s.1
    · rw [if_pos hz] at h
      injection h with h2
      refine ⟨z, rfl, Or.inl ⟨hz, by rw [← h2]⟩, ?_⟩
      rw [← h2]
    · rw [if_neg hz] at h
      injection h with h2
      have hidx : (s.1 ++ [z]).indexOf z = (s.1 ++ [z]).length - 1 := by
        rw [indexOf_append_new z s.1 hz, List.length_append]
        simp
      refine ⟨z, rfl, Or.inr ⟨hz, by rw [← h2]⟩, ?_⟩
      rw [← h2]
      rw [hidx]

/-- The property recorded by one `Vgeom` loop iteration `(p,i,j)`: the
combined vector exists, is in the pool, and both symmetric entries of
`M[p]` hold its (first-seen) pool index. -/
def vgClaim (L : List (List Vec)) (e : Vec) (nm : Nat) (s : VgState)
    (t : Nat × Nat × Nat) : Prop :=
  ∃ z, vgComb L e nm t = Except.ok z ∧ z ∈ s.1 ∧
    ent (s.2.getD t.1 []) t.2.1 t.2.2 = s.1.indexOf z ∧
    ent (s.2.getD t.1 []) t.2.2 t.2.1 = s.1.indexOf z

/-- Matrix `p` of the reference shape is square. -/
def SquareAt (N : List IdxMat) (p : Nat) : Prop :=
  ∀ k, k < (N.getD p []).length →
    ((N.getD p []).getD k []).length = (N.getD p []).length

theorem nodup_append_singleton {α : Type _} {l : List α} {z : α}
    (h : l.Nodup) (hz : z ∉ l) : (l ++ [z]).Nodup := by
  induction l with
  | nil => simp
  | cons a t ih =>
    rw [List.cons_append]
    rcases List.nodup_cons.mp h with ⟨ha, ht⟩
    refine List.nodup_cons.mpr ⟨?_, ih ht (fun h2 => hz (List.mem_cons_of_mem a h2))⟩
    intro hmem
    rcases List.mem_append.mp hmem with h2 | h2
    · exact ha h2
    · rcases List.mem_singleton.mp h2 with rfl
      exact hz (List.mem_cons_self a t)

theorem vgStep_nodup {L : List (List Vec)} {e : Vec} {nm : Nat}
    {s s₂ : VgState} {t : Nat × Nat × Nat}
    (h : vgStep L e nm s t = Except.ok s₂) (hnd : s.1.Nodup) :
    s₂.1.Nodup := by
  rcases vgStep_ok h with ⟨z, _, hor, _⟩
  rcases hor with ⟨_, hz⟩ | ⟨hz, hz2⟩
  · rwa [hz]
  · rw [hz2]
    exact nodup_append_singleton hnd hz

theorem vgStep_grows {L : List (List Vec)} {e : Vec} {nm : Nat}
    {s s₂ : VgState} {t : Nat × Nat × Nat}
    (h : vgStep L e nm s t = Except.ok s₂) : s.1 <+: s₂.1 := by
  rcases vgStep_ok h with ⟨z, _, hor, _⟩
  rcases hor with ⟨_, hz⟩ | ⟨_, hz⟩
  · rw [hz]
  · rw [hz]
    exact ⟨[z], rfl⟩

theorem vgStep_shape {L : List (List Vec)} {e : Vec} {nm : Nat}
    {s s₂ : VgState} {t : Nat × Nat × Nat} {N : List IdxMat}
    (h : vgStep L e nm s t = Except.ok s₂) (hsh : SameShape s.2 N) :
    SameShape s₂.2 N := by
  rcases vgStep_ok h with ⟨z, _, _, hM⟩
  rw [hM]
  exact (SameShape_setP_set2 s.2 t.1 t.2.1 t.2.2 _).trans hsh

theorem vgStep_claim {L : List (List Vec)} {e : Vec} {nm : Nat}
    {s s₂ : VgState} {t : Nat × Nat × Nat} {N : List IdxMat}
    (h : vgStep L e nm s t = Except.ok s₂) (hsh : SameShape s.2 N)
    (hsq : SquareAt N t.1) (hp : t.1 < N.length)
    (hi : t.2.1 < (N.getD t.1 []).length)
    (hj : t.2.2 < (N.getD t.1 []).length) :
    vgClaim L e nm s₂ t := by
  rcases vgStep_ok h with ⟨z, hcomb, hor, hM⟩
  have hzmem : z ∈ s₂.1 := by
    rcases hor with ⟨hz, he⟩ | ⟨_, he⟩
    · rw [he]; exact hz
    · rw [he]; exact List.mem_append_right _ (List.mem_singleton.mpr rfl)
  refine ⟨z, hcomb, hzmem, ?_⟩
  rw [hM, getD_setP_self s.2 t.1 _ (by rw [hsh.1]; exact hp)]
  have hents := ent_set2_self (s.2.getD t.1 []) t.2.1 t.2.2 (s₂.1.indexOf z)
    ((N.getD t.1 []).length) (hsh.2 t.1).1
    (fun k hk => ((hsh.2 t.1).2 k).trans (hsq k hk)) hi hj
  exact ⟨hents.1, hents.2⟩

theorem indexOf_stable {z : Vec} {Z Z₂ : List Vec}
    (hor : (z ∈ Z ∧ Z₂ = Z) ∨ (z ∉ Z ∧ Z₂ = Z ++ [z]))
    {w : Vec} (hw : w ∈ Z) : Z₂.indexOf w = Z.indexOf w := by
  rcases hor with ⟨_, he⟩ | ⟨_, he⟩
  · rw [he]
  · rw [he]
    exact indexOf_append_left w Z [z] hw

theorem set_getD_self {α : Type _} (l : List α) (i : Nat) (d : α) :
    l.set i (l.getD i d) = l := by
  induction l generalizing i with
  | nil => rfl
  | cons a t ih =>
    cases i with
    | zero => rfl
    | succ i =>
      rw [List.set_cons_succ, List.getD_cons_succ, ih i]

theorem ent_setM_val (A : IdxMat) (i j v : Nat) :
    ent (setM A i j v) i j = v ∨ ent (setM A i j v) i j = ent A i j := by
  by_cases hi : i < A.length
  · by_cases hj : j < (A.getD i []).length
    · exact Or.inl (ent_setM_self A i j v hi hj)
    · right
      unfold setM
      rw [set_of_le (A.getD i []) j v (by omega), set_getD_self]
  · right
    unfold setM
    rw [set_of_le A i _ (by omega)]

theorem ent_set2_val (A : IdxMat) (i j q a b : Nat)
    (hab : (a = i ∧ b = j) ∨ (a = j ∧ b = i)) :
    ent (set2 A i j q) a b = q ∨ ent (set2 A i j q) a b = ent A a b := by
  unfold set2
  rcases hab with ⟨rfl, rfl⟩ | ⟨rfl, rfl⟩
  · by_cases hij : a = b
    · subst hij
      rcases ent_setM_val (setM A a a q) a a q with h | h
      · exact Or.inl h
      · rw [h]
        rcases ent_setM_val A a a q with h2 | h2
        · exact Or.inl h2
        · exact Or.inr h2
    · rw [ent_setM_ne (setM A a b q) b a q a b (fun hh => hij hh.1)]
      rcases ent_setM_val A a b q with h | h
      · exact Or.inl h
      · exact Or.inr h
  · rcases ent_setM_val (setM A b a q) a b q with h | h
    · exact Or.inl h
    · rw [h]
      by_cases hij : a = b
      · subst hij
        rcases ent_setM_val A a a q with h2 | h2
        · exact Or.inl h2
        · exact Or.inr h2
      · rw [ent_setM_ne A b a q a b (fun hh => hij hh.1)]
        exact Or.inr (Eq.refl _)

theorem vgStep_preserves {L : List (List Vec)} {e : Vec} {nm : Nat}
    {s s₂ : VgState} {t t' : Nat × Nat × Nat}
    (h : vgStep L e nm s t = Except.ok s₂)
    (hc : vgClaim L e nm s t') : vgClaim L e nm s₂ t' := by
  obtain ⟨p, i, j⟩ := t
  obtain ⟨p', i', j'⟩ := t'
  rcases vgStep_ok h with ⟨z, hcomb, hor, hM⟩
  rcases hc with ⟨z', hcomb', hz', he1, he2⟩
  have hzmem : z' ∈ s₂.1 := by
    rcases hor with ⟨_, he⟩ | ⟨_, he⟩
    · rw [he]; exact hz'
    · rw [he]; exact List.mem_append_left _ hz'
  have hidx : s₂.1.indexOf z' = s.1.indexOf z' := indexOf_stable hor hz'
  refine ⟨z', hcomb', hzmem, ?_, ?_⟩
  all_goals rw [hM, hidx]
  all_goals by_cases hpp : p = p'
  case pos =>
    subst hpp
    by_cases hpl : p < s.2.length
    · rw [getD_setP_self s.2 p _ hpl]
      by_cases hA : i' = i ∧ j' = j
      · have ht : z' = z := by
          rcases hA with ⟨rfl, rfl⟩
          rw [hcomb'] at hcomb
          exact Except.ok.inj hcomb
        subst ht
        have hq : s₂.1.indexOf z' = s.1.indexOf z' := hidx
        rcases ent_set2_val (s.2.getD p []) i j (s₂.1.indexOf z') i' j'
            (Or.inl hA) with hv | hv
        · rw [hv, hq]
        · rw [hv]
          exact he1
      · by_cases hB : i' = j ∧ j' = i
        · have ht : z' = z := by
            rcases hB with ⟨rfl, rfl⟩
            rw [vgComb_swap L e nm p i' j'] at hcomb'
            rw [hcomb'] at hcomb
            exact Except.ok.inj hcomb
          subst ht
          rcases ent_set2_val (s.2.getD p []) i j (s₂.1.indexOf z') i' j'
              (Or.inr hB) with hv | hv
          · rw [hv, hidx]
          · rw [hv]
            exact he1
        · rw [ent_set2_other (s.2.getD p []) i j _ i' j' hA hB]
          exact he1
    · unfold setP
      rw [set_of_le s.2 p _ (by omega)]
      exact he1
  case neg =>
    rw [getD_setP_ne s.2 p p' _ hpp]
    exact he1
  case pos =>
    subst hpp
    by_cases hpl : p < s.2.length
    · rw [getD_setP_self s.2 p _ hpl]
      by_cases hA : i' = i ∧ j' = j
      · have ht : z' = z := by
          rcases hA with ⟨rfl, rfl⟩
          rw [hcomb'] at hcomb
          exact Except.ok.inj hcomb
        subst ht
        rcases ent_set2_val (s.2.getD p []) i j (s₂.1.indexOf z') j' i'
            (Or.inr ⟨hA.2, hA.1⟩) with hv | hv
        · rw [hv, hidx]
        · rw [hv]
          exact he2
      · by_cases hB : i' = j ∧ j' = i
        · have ht : z' = z := by
            rcases hB with ⟨rfl, rfl⟩
            rw [vgComb_swap L e nm p i' j'] at hcomb'
            rw [hcomb'] at hcomb
            exact Except.ok.inj hcomb
          subst ht
          rcases ent_set2_val (s.2.getD p []) i j (s₂.1.indexOf z') j' i'
              (Or.inl ⟨hB.2, hB.1⟩) with hv | hv
          · rw [hv, hidx]
          · rw [hv]
            exact he2
        · rw [ent_set2_other (s.2.getD p []) i j _ j' i'
            (fun hh => hB ⟨hh.2, hh.1⟩) (fun hh => hA ⟨hh.2, hh.1⟩)]
          exact he2
    · unfold setP
      rw [set_of_le s.2 p _ (by omega)]
      exact he2
  case neg =>
    rw [getD_setP_ne s.2 p p' _ hpp]
    exact he2

theorem vgFold_inv {L : List (List Vec)} {e : Vec} {nm : Nat}
    {N : List IdxMat} :
    ∀ (vs : List (Nat × Nat × Nat)) (s s' : VgState),
    List.foldlM (vgStep L e nm) s vs = Except.ok s' →
    (∀ u ∈ vs, u.1 < N.length ∧ u.2.1 < (N.getD u.1 []).length ∧
      u.2.2 < (N.getD u.1 []).length ∧ SquareAt N u.1) →
    s.1.Nodup → SameShape s.2 N →
    (s'.1.Nodup ∧ SameShape s'.2 N ∧ s.1 <+: s'.1 ∧
     (∀ t', vgClaim L e nm s t' → vgClaim L e nm s' t') ∧
     (∀ u ∈ vs, vgClaim L e nm s' u)) := by
  intro vs
  induction vs with
  | nil =>
    intro s s' h _ hnd hsh
    rw [List.foldlM_nil] at h
    have hss : s = s' := by
      injection h
    subst hss
    exact ⟨hnd, hsh, ⟨[], List.append_nil _⟩, fun _ hc => hc, fun u hu => absurd hu
      (List.not_mem_nil u)⟩
  | cons u us ih =>
    intro s s' h hrange hnd hsh
    rw [List.foldlM_cons] at h
    cases hstep : vgStep L e nm s u with
    | error msg =>
      rw [hstep] at h
      simp only [Bind.bind, Except.bind] at h
      exact Except.noConfusion h
    | ok s₁ =>
      rw [hstep] at h
      simp only [Bind.bind, Except.bind] at h
      have hu := hrange u (List.mem_cons_self u us)
      have hnd₁ := vgStep_nodup hstep hnd
      have hsh₁ := vgStep_shape hstep hsh
      have hgrow₁ := vgStep_grows hstep
      have hclaim₁ := vgStep_claim hstep hsh hu.2.2.2 hu.1 hu.2.1 hu.2.2.1
      rcases ih s₁ s' h (fun v hv => hrange v (List.mem_cons_of_mem u hv))
        hnd₁ hsh₁ with ⟨hnd', hsh', hgrow', htrans', hclaims'⟩
      refine ⟨hnd', hsh', hgrow₁.trans hgrow', ?_, ?_⟩
      · intro t' hc
        exact htrans' t' (vgStep_preserves hstep hc)
      · intro v hv
        rcases List.mem_cons.mp hv with rfl | hv2
        · exact htrans' v hclaim₁
        · exact hclaims' v hv2

theorem mem_vgVisits (L : List (List Vec)) (P p i j : Nat) :
    (p, i, j) ∈ vgVisits L P ↔
      p < P ∧ i ≤ j ∧ j < (L.getD p []).length := by
  unfold vgVisits
  simp only [List.mem_flatMap, List.mem_map, List.mem_range,
    List.mem_range'_1]
  constructor
  · rintro ⟨p', hp', i', hi', j', hj', heq⟩
    obtain ⟨rfl, rfl, rfl⟩ : p' = p ∧ i' = i ∧ j' = j := by
      refine ⟨congrArg Prod.fst heq, ?_, ?_⟩
      · exact congrArg (fun x => x.2.1) heq
      · exact congrArg (fun x => x.2.2) heq
    exact ⟨hp', hj'.1, by omega⟩
  · rintro ⟨hp, hij, hj⟩
    exact ⟨p, hp, i, by omega, j, ⟨hij, by omega⟩, rfl⟩

theorem B_ne_nil (m n : Int) (hm : 0 ≤ m) (hn : 0 ≤ n) : B m n ≠ [] := by
  have hneg : ¬ (m < 0 ∨ n < 0) := by omega
  unfold B
  rw [if_neg hneg]
  intro hB
  have hmem : List.replicate n.toNat 0 ∈ (srange 0 m).flatMap
      (fun j => IntegerVectors j.toNat n.toNat) := by
    apply (mem_l0 m n hm _).mpr
    refine ⟨List.length_replicate _ _, ?_⟩
    rw [sum_replicate_zero]
    omega
  have hmem2 := (sortW_perm _).mem_iff.mpr hmem
  have hfl := groupRuns_flatten (sortW ((srange 0 m).flatMap
    (fun j => IntegerVectors j.toNat n.toNat)))
  rw [hB] at hfl
  rw [← hfl] at hmem2
  simp at hmem2

theorem B_length_ge (m n : Int) (hm : 0 ≤ m) (hn : 0 ≤ n) :
    n.toNat * m.toNat / 2 + 1 ≤ (B m n).length := by
  by_cases h1 : 1 ≤ m.toNat ∧ 1 ≤ n.toNat
  · have hlen := (B_grades m n (by omega) (by omega)).1
    rw [Nat.mul_comm m.toNat n.toNat] at hlen
    omega
  · have hz : n.toNat * m.toNat = 0 := by
      have h2 : m.toNat = 0 ∨ n.toNat = 0 := by omega
      rcases h2 with h | h
      · rw [h, Nat.mul_zero]
      · rw [h, Nat.zero_mul]
    rw [hz]
    have := B_ne_nil m n hm hn
    have hlen : 0 < (B m n).length := List.length_pos.mpr this
    omega

theorem Vgeom_ok_inv {m n : Int} {Z : List Vec} {M : List IdxMat}
    (h : Vgeom m n = Except.ok (some (Z, M))) :
    ¬ (m < 0 ∨ n < 0) ∧
    List.foldlM (vgStep (B m n) (e1 n.toNat) (n.toNat * m.toNat))
      (([] : List Vec),
        ((B m n).take (n.toNat * m.toNat / 2 + 1)).map
          (fun x => zeroM x.length x.length))
      (vgVisits (B m n) (n.toNat * m.toNat / 2 + 1)) = Except.ok (Z, M) := by
  by_cases hneg : m < 0 ∨ n < 0
  · unfold Vgeom at h
    rw [if_pos hneg] at h
    injection h with h2
    exact Option.noConfusion h2
  · refine ⟨hneg, ?_⟩
    unfold Vgeom at h
    rw [if_neg hneg] at h
    dsimp only at h
    cases hf : List.foldlM (vgStep (B m n) (e1 n.toNat) (n.toNat * m.toNat))
        (([] : List Vec),
          ((B m n).take (n.toNat * m.toNat / 2 + 1)).map
            (fun x => zeroM x.length x.length))
        (vgVisits (B m n) (n.toNat * m.toNat / 2 + 1)) with
    | error msg =>
      rw [hf] at h
      simp only [Bind.bind, Except.bind] at h
      exact Except.noConfusion h
    | ok s =>
      rw [hf] at h
      simp only [Bind.bind, Except.bind] at h
      injection h with h2
      injection h2 with h3
      rw [h3]

theorem zeroM_length (r c : Nat) : (zeroM r c).length = r :=
  List.length_replicate r _

theorem zeroM_row_length (r c k : Nat) (hk : k < r) :
    ((zeroM r c).getD k []).length = c := by
  unfold zeroM
  rw [List.getD_eq_getElem _ _ (by rw [List.length_replicate]; exact hk),
    List.getElem_replicate, List.length_replicate]

theorem N_getD (L : List (List Vec)) (P p : Nat) (hp : p < P)
    (hge : P ≤ L.length) :
    ((L.take P).map (fun x => zeroM x.length x.length)).getD p []
      = zeroM (L.getD p []).length (L.getD p []).length := by
  have hlen : p < ((L.take P).map
      (fun x => zeroM x.length x.length)).length := by
    rw [List.length_map, List.length_take]
    omega
  rw [List.getD_eq_getElem _ _ hlen, List.getElem_map, List.getElem_take,
    List.getD_eq_getElem _ _ (by omega)]

/-- C7: for `m, n >= 0`, when `Vgeom(m,n)` returns a pair `(Z, M)`, the
list `M` has one pairing-index matrix per grade `p` up to
`floor(m*n/2)`; `M[p]` is square of size the number of grade-`p` basis
vectors, symmetric, and each entry holds the pool index in `Z` of the
combined vector `L[p][i] + L[p][j] + (n*m-2*p)*e1`. -/
theorem claim_C7_pairing_symmetric (m n : Int) (hm : 0 ≤ m) (hn : 0 ≤ n)
    (Z : List Vec) (M : List IdxMat)
    (h : Vgeom m n = Except.ok (some (Z, M))) :
    M.length = n.toNat * m.toNat / 2 + 1 ∧
    ∀ p, p ≤ n.toNat * m.toNat / 2 →
      ((M.getD p []).length = ((B m n).getD p []).length ∧
       (∀ k, k < ((B m n).getD p []).length →
         ((M.getD p []).getD k []).length = ((B m n).getD p []).length) ∧
       ∀ i j, i < ((B m n).getD p []).length →
         j < ((B m n).getD p []).length →
         (ent (M.getD p []) i j = ent (M.getD p []) j i ∧
          ∃ z, vgComb (B m n) (e1 n.toNat) (n.toNat * m.toNat) (p, i, j)
              = Except.ok z ∧ z ∈ Z ∧
            ent (M.getD p []) i j = Z.indexOf z)) := by
  rcases Vgeom_ok_inv h with ⟨hneg, hfold⟩
  have hge := B_length_ge m n hm hn
  have hrange : ∀ u ∈ vgVisits (B m n) (n.toNat * m.toNat / 2 + 1),
      u.1 < (((B m n).take (n.toNat * m.toNat / 2 + 1)).map
        (fun x => zeroM x.length x.length)).length ∧
      u.2.1 < ((((B m n).take (n.toNat * m.toNat / 2 + 1)).map
        (fun x => zeroM x.length x.length)).getD u.1 []).length ∧
      u.2.2 < ((((B m n).take (n.toNat * m.toNat / 2 + 1)).map
        (fun x => zeroM x.length x.length)).getD u.1 []).length ∧
      SquareAt (((B m n).take (n.toNat * m.toNat / 2 + 1)).map
        (fun x => zeroM x.length x.length)) u.1 := by
    intro u hu
    obtain ⟨p, i, j⟩ := u
    rcases (mem_vgVisits _ _ p i j).mp hu with ⟨hp, hij, hj⟩
    have hNlen : (((B m n).take (n.toNat * m.toNat / 2 + 1)).map
        (fun x => zeroM x.length x.length)).length
          = n.toNat * m.toNat / 2 + 1 := by
      rw [List.length_map, List.length_take]
      omega
    have hNget := N_getD (B m n) (n.toNat * m.toNat / 2 + 1) p hp hge
    refine ⟨by omega, ?_, ?_, ?_⟩
    · show i < ((((B m n).take (n.toNat * m.toNat / 2 + 1)).map
        (fun x => zeroM x.length x.length)).getD p []).length
      rw [hNget, zeroM_length]
      omega
    · show j < ((((B m n).take (n.toNat * m.toNat / 2 + 1)).map
        (fun x => zeroM x.length x.length)).getD p []).length
      rw [hNget, zeroM_length]
      omega
    · show SquareAt (((B m n).take (n.toNat * m.toNat / 2 + 1)).map
        (fun x => zeroM x.length x.length)) p
      intro k hk
      rw [hNget] at hk ⊢
      rw [zeroM_length] at hk
      rw [zeroM_row_length _ _ k hk, zeroM_length]
  have hinv := vgFold_inv (vgVisits (B m n) (n.toNat * m.toNat / 2 + 1))
    (([] : List Vec), ((B m n).take (n.toNat * m.toNat / 2 + 1)).map
      (fun x => zeroM x.length x.length)) (Z, M) hfold hrange
    (List.nodup_nil) (SameShape_refl _)
  rcases hinv with ⟨hnd, hsh, _, _, hclaims⟩
  have hNlen : (((B m n).take (n.toNat * m.toNat / 2 + 1)).map
      (fun x => zeroM x.length x.length)).length
        = n.toNat * m.toNat / 2 + 1 := by
    rw [List.length_map, List.length_take]
    omega
  constructor
  · rw [hsh.1, hNlen]
  · intro p hp
    have hNget := N_getD (B m n) (n.toNat * m.toNat / 2 + 1) p (by omega) hge
    have hdim : (M.getD p []).length = ((B m n).getD p []).length := by
      rw [(hsh.2 p).1, hNget, zeroM_length]
    refine ⟨hdim, ?_, ?_⟩
    · intro k hk
      rw [(hsh.2 p).2 k, hNget, zeroM_row_length _ _ k hk]
    · intro i j hi hj
      by_cases hij : i ≤ j
      · have hcl := hclaims (p, i, j)
          ((mem_vgVisits _ _ p i j).mpr ⟨by omega, hij, hj⟩)
        rcases hcl with ⟨z, hcomb, hzmem, he1, he2⟩
        exact ⟨he1.trans he2.symm, z, hcomb, hzmem, he1⟩
      · have hcl := hclaims (p, j, i)
          ((mem_vgVisits _ _ p j i).mpr ⟨by omega, by omega, hi⟩)
        rcases hcl with ⟨z, hcomb, hzmem, he1, he2⟩
        refine ⟨he2.trans he1.symm, z, ?_, hzmem, he2⟩
        rw [vgComb_swap]
        exact hcomb

/-- Witness for C7 at the concrete input `(m,n) = (1,1)`, where
`Vgeom` returns the pool `[[1]]` and the single matrix `[[0]]`. -/
theorem claim_C7_witness :
    ((0 : Int) ≤ 1) ∧
    Vgeom 1 1 = Except.ok (some ([[1]], [[[0]]])) ∧
    (([[[0]]] : List IdxMat).length
        = (1 : Int).toNat * (1 : Int).toNat / 2 + 1 ∧
    ∀ p, p ≤ (1 : Int).toNat * (1 : Int).toNat / 2 →
      ((([[[0]]] : List IdxMat).getD p []).length
          = ((B 1 1).getD p []).length ∧
       (∀ k, k < ((B 1 1).getD p []).length →
         ((([[[0]]] : List IdxMat).getD p []).getD k []).length
           = ((B 1 1).getD p []).length) ∧
       ∀ i j, i < ((B 1 1).getD p []).length →
         j < ((B 1 1).getD p []).length →
         (ent (([[[0]]] : List IdxMat).getD p []) i j
            = ent (([[[0]]] : List IdxMat).getD p []) j i ∧
          ∃ z, vgComb (B 1 1) (e1 (1 : Int).toNat)
              ((1 : Int).toNat * (1 : Int).toNat) (p, i, j)
              = Except.ok z ∧ z ∈ ([[1]] : List Vec) ∧
            ent (([[[0]]] : List IdxMat).getD p []) i j
              = ([[1]] : List Vec).indexOf z))) :=
  ⟨by decide, by decide,
    claim_C7_pairing_symmetric 1 1 (by decide) (by decide) [[1]] [[[0]]]
      (by decide)⟩

/-- The property recorded by one `Varith` loop iteration: for a
self-pairing visit both symmetric entries of `M[p][0]` hold the pool
index in `Z[0]` of the combined vector; for a cross-pairing visit the
single entry of `M[p][1]` holds the pool index in `Z[1]`. -/
def vaClaim (L : List (List Vec)) (e : Vec) (nm : Nat) (s : VaState)
    (t : Bool × Nat × Nat × Nat) : Prop :=
  ∃ z, vaComb L e nm t = Except.ok z ∧
    (if t.1 = false then
      z ∈ s.1.1 ∧
      ent (s.2.getD t.2.1 ([], [])).1 t.2.2.1 t.2.2.2 = s.1.1.indexOf z ∧
      ent (s.2.getD t.2.1 ([], [])).1 t.2.2.2 t.2.2.1 = s.1.1.indexOf z
    else
      z ∈ s.1.2 ∧
      ent (s.2.getD t.2.1 ([], [])).2 t.2.2.1 t.2.2.2 = s.1.2.indexOf z)

theorem vaStep_ok {L : List (List Vec)} {e : Vec} {nm : Nat}
    {s s₂ : VaState} {t : Bool × Nat × Nat × Nat}
    (h : vaStep L e nm s t = Except.ok s₂) :
    ∃ z, vaComb L e nm t = Except.ok z ∧
      (if t.1 = false then
        s₂.1.2 = s.1.2 ∧
        ((z ∈ s.1.1 ∧ s₂.1.1 = s.1.1) ∨
          (z ∉ s.1.1 ∧ s₂.1.1 = s.1.1 ++ [z])) ∧
        s₂.2 = s.2.set t.2.1
          ((set2 (s.2.getD t.2.1 ([], [])).1 t.2.2.1 t.2.2.2
            (s₂.1.1.indexOf z)), (s.2.getD t.2.1 ([], [])).2)
      else
        s₂.1.1 = s.1.1 ∧
        ((z ∈ s.1.2 ∧ s₂.1.2 = s.1.2) ∨
          (z ∉ s.1.2 ∧ s₂.1.2 = s.1.2 ++ [z])) ∧
        s₂.2 = s.2.set t.2.1
          ((s.2.getD t.2.1 ([], [])).1, setM (s.2.getD t.2.1 ([], [])).2
            t.2.2.1 t.2.2.2 (s₂.1.2.indexOf z))) := by
  obtain ⟨c, p, i, j⟩ := t
  unfold vaStep at h
  cases hcomb : vaComb L e nm (c, p, i, j) with
  | error msg =>
    rw [hcomb] at h
    simp only [Bind.bind, Except.bind] at h
    exact Except.noConfusion h
  | ok z =>
    rw [hcomb] at h
    simp only [Bind.bind, Except.bind] at h
    cases c with
    | false =>
      simp only [if_pos rfl] at h ⊢
      by_cases hz : z ∈ s.1.1
      · rw [if_pos hz] at h
        injection h with h2
        refine ⟨z, rfl, by rw [← h2], Or.inl ⟨hz, by rw [← h2]⟩, ?_⟩
        rw [← h2]
      · rw [if_neg hz] at h
        injection h with h2
        have hidx : (s.1.1 ++ [z]).indexOf z = (s.1.1 ++ [z]).length - 1 := by
          rw [indexOf_append_new z s.1.1 hz, List.length_append]
          simp
        refine ⟨z, rfl, by rw [← h2], Or.inr ⟨hz, by rw [← h2]⟩, ?_⟩
        rw [← h2]
        rw [hidx]
    | true =>
      simp only [if_neg (show ¬ ((true : Bool) = false) by decide)] at h ⊢
      by_cases hz : z ∈ s.1.2
      · rw [if_pos hz] at h
        injection h with h2
        refine ⟨z, rfl, by rw [← h2], Or.inl ⟨hz, by rw [← h2]⟩, ?_⟩
        rw [← h2]
      · rw [if_neg hz] at h
        injection h with h2
        have hidx : (s.1.2 ++ [z]).indexOf z = (s.1.2 ++ [z]).length - 1 := by
          rw [indexOf_append_new z s.1.2 hz, List.length_append]
          simp
        refine ⟨z, rfl, by rw [← h2], Or.inr ⟨hz, by rw [← h2]⟩, ?_⟩
        rw [← h2]
        rw [hidx]

/-- Shape agreement for the per-grade matrix pairs of `Varith`. -/
def SameShapeP (M N : List (IdxMat × IdxMat)) : Prop :=
  M.length = N.length ∧ ∀ p,
    ((M.getD p ([], [])).1.length = (N.getD p ([], [])).1.length ∧
     ∀ k, ((M.getD p ([], [])).1.getD k []).length
        = ((N.getD p ([], [])).1.getD k []).length) ∧
    ((M.getD p ([], [])).2.length = (N.getD p ([], [])).2.length ∧
     ∀ k, ((M.getD p ([], [])).2.getD k []).length
        = ((N.getD p ([], [])).2.getD k []).length)

theorem SameShapeP_refl (M : List (IdxMat × IdxMat)) : SameShapeP M M :=
  ⟨Eq.refl _, fun _ => ⟨⟨Eq.refl _, fun _ => Eq.refl _⟩,
    ⟨Eq.refl _, fun _ => Eq.refl _⟩⟩⟩

theorem SameShapeP_setA (M : List (IdxMat × IdxMat)) (p i j v : Nat) :
    SameShapeP (M.set p ((set2 (M.getD p ([], [])).1 i j v),
      (M.getD p ([], [])).2)) M := by
  refine ⟨List.length_set M p _, fun q => ?_⟩
  by_cases hpq : p = q
  · subst hpq
    by_cases hp : p < M.length
    · rw [getD_set_self M p _ _ hp]
      exact ⟨⟨length_set2 _ i j v, fun k => row_length_set2 _ i j v k⟩,
        ⟨Eq.refl _, fun _ => Eq.refl _⟩⟩
    · rw [set_of_le M p _ (by omega)]
      exact ⟨⟨Eq.refl _, fun _ => Eq.refl _⟩, ⟨Eq.refl _, fun _ => Eq.refl _⟩⟩
  · rw [getD_set_ne M p q _ _ hpq]
    exact ⟨⟨Eq.refl _, fun _ => Eq.refl _⟩, ⟨Eq.refl _, fun _ => Eq.refl _⟩⟩

theorem SameShapeP_setB (M : List (IdxMat × IdxMat)) (p i j v : Nat) :
    SameShapeP (M.set p ((M.getD p ([], [])).1,
      setM (M.getD p ([], [])).2 i j v)) M := by
  refine ⟨List.length_set M p _, fun q => ?_⟩
  by_cases hpq : p = q
  · subst hpq
    by_cases hp : p < M.length
    · rw [getD_set_self M p _ _ hp]
      exact ⟨⟨Eq.refl _, fun _ => Eq.refl _⟩,
        ⟨length_setM _ i j v, fun k => row_length_setM _ i j v k⟩⟩
    · rw [set_of_le M p _ (by omega)]
      exact ⟨⟨Eq.refl _, fun _ => Eq.refl _⟩, ⟨Eq.refl _, fun _ => Eq.refl _⟩⟩
  · rw [getD_set_ne M p q _ _ hpq]
    exact ⟨⟨Eq.refl _, fun _ => Eq.refl _⟩, ⟨Eq.refl _, fun _ => Eq.refl _⟩⟩

theorem SameShapeP_trans {M N K : List (IdxMat × IdxMat)}
    (h1 : SameShapeP M N) (h2 : SameShapeP N K) : SameShapeP M K :=
  ⟨h1.1.trans h2.1, fun p =>
    ⟨⟨((h1.2 p).1.1).trans ((h2.2 p).1.1),
      fun k => (((h1.2 p).1.2) k).trans (((h2.2 p).1.2) k)⟩,
     ⟨((h1.2 p).2.1).trans ((h2.2 p).2.1),
      fun k => (((h1.2 p).2.2) k).trans (((h2.2 p).2.2) k)⟩⟩⟩

theorem vaStep_pools {L : List (List Vec)} {e : Vec} {nm : Nat}
    {s s₂ : VaState} {t : Bool × Nat × Nat × Nat}
    (h : vaStep L e nm s t = Except.ok s₂) :
    (s.1.1.Nodup → s₂.1.1.Nodup) ∧ (s.1.2.Nodup → s₂.1.2.Nodup) ∧
    s.1.1 <+: s₂.1.1 ∧ s.1.2 <+: s₂.1.2 := by
  rcases vaStep_ok h with ⟨z, hcomb, hfacts⟩
  by_cases hc : t.1 = false
  · rw [if_pos hc] at hfacts
    rcases hfacts with ⟨h12, hor, hM⟩
    rcases hor with ⟨hz, he⟩ | ⟨hz, he⟩
    · rw [he, h12]
      exact ⟨fun hh => hh, fun hh => hh, ⟨[], List.append_nil _⟩,
        ⟨[], List.append_nil _⟩⟩
    · rw [he, h12]
      exact ⟨fun hh => nodup_append_singleton hh hz, fun hh => hh,
        ⟨[z], rfl⟩, ⟨[], List.append_nil _⟩⟩
  · rw [if_neg hc] at hfacts
    rcases hfacts with ⟨h11, hor, hM⟩
    rcases hor with ⟨hz, he⟩ | ⟨hz, he⟩
    · rw [he, h11]
      exact ⟨fun hh => hh, fun hh => hh, ⟨[], List.append_nil _⟩,
        ⟨[], List.append_nil _⟩⟩
    · rw [he, h11]
      exact ⟨fun hh => hh, fun hh => nodup_append_singleton hh hz,
        ⟨[], List.append_nil _⟩, ⟨[z], rfl⟩⟩

theorem vaStep_shape {L : List (List Vec)} {e : Vec} {nm : Nat}
    {s s₂ : VaState} {t : Bool × Nat × Nat × Nat}
    {N : List (IdxMat × IdxMat)}
    (h : vaStep L e nm s t = Except.ok s₂) (hsh : SameShapeP s.2 N) :
    SameShapeP s₂.2 N := by
  rcases vaStep_ok h with ⟨z, hcomb, hfacts⟩
  by_cases hc : t.1 = false
  · rw [if_pos hc] at hfacts
    rw [hfacts.2.2]
    exact SameShapeP_trans (SameShapeP_setA s.2 t.2.1 t.2.2.1 t.2.2.2 _) hsh
  · rw [if_neg hc] at hfacts
    rw [hfacts.2.2]
    exact SameShapeP_trans (SameShapeP_setB s.2 t.2.1 t.2.2.1 t.2.2.2 _) hsh

theorem vaComb_swap (L : List (List Vec)) (e : Vec) (nm : Nat)
    (p i j : Nat) :
    vaComb L e nm (false, p, i, j) = vaComb L e nm (false, p, j, i) := by
  dsimp only [vaComb]
  simp only [if_pos (rfl : (false : Bool) = false), if_true]
  rw [vadd_comm]

/-- In-range condition of one `Varith` loop position against the
reference shape `N`: the grade exists, and the written cell lies inside
the corresponding block, which for a self visit is square. -/
def vaRange (N : List (IdxMat × IdxMat)) (t : Bool × Nat × Nat × Nat) :
    Prop :=
  t.2.1 < N.length ∧
  (if t.1 = false then
    (∀ k, k < (N.getD t.2.1 ([], [])).1.length →
      ((N.getD t.2.1 ([], [])).1.getD k []).length
        = (N.getD t.2.1 ([], [])).1.length) ∧
    t.2.2.1 < (N.getD t.2.1 ([], [])).1.length ∧
    t.2.2.2 < (N.getD t.2.1 ([], [])).1.length
  else
    t.2.2.1 < (N.getD t.2.1 ([], [])).2.length ∧
    t.2.2.2 < ((N.getD t.2.1 ([], [])).2.getD t.2.2.1 []).length)

theorem vaStep_claim {L : List (List Vec)} {e : Vec} {nm : Nat}
    {s s₂ : VaState} {t : Bool × Nat × Nat × Nat}
    {N : List (IdxMat × IdxMat)}
    (h : vaStep L e nm s t = Except.ok s₂) (hsh : SameShapeP s.2 N)
    (hr : vaRange N t) : vaClaim L e nm s₂ t := by
  rcases vaStep_ok h with ⟨z, hcomb, hfacts⟩
  obtain ⟨hp, hr2⟩ := hr
  by_cases hc : t.1 = false
  · rw [if_pos hc] at hfacts hr2
    rcases hfacts with ⟨h12, hor, hM⟩
    obtain ⟨hsq, hi, hj⟩ := hr2
    have hzmem : z ∈ s₂.1.1 := by
      rcases hor with ⟨hz, he⟩ | ⟨_, he⟩
      · rw [he]; exact hz
      · rw [he]; exact List.mem_append_right _ (List.mem_singleton.mpr rfl)
    refine ⟨z, hcomb, ?_⟩
    rw [if_pos hc]
    refine ⟨hzmem, ?_⟩
    rw [hM, getD_set_self s.2 t.2.1 _ ([], []) (by rw [hsh.1]; exact hp)]
    have hents := ent_set2_self (s.2.getD t.2.1 ([], [])).1 t.2.2.1 t.2.2.2
      (s₂.1.1.indexOf z) ((N.getD t.2.1 ([], [])).1.length)
      (hsh.2 t.2.1).1.1
      (fun k hk => (((hsh.2 t.2.1).1.2) k).trans (hsq k hk)) hi hj
    exact ⟨hents.1, hents.2⟩
  · rw [if_neg hc] at hfacts hr2
    rcases hfacts with ⟨h11, hor, hM⟩
    obtain ⟨hi, hj⟩ := hr2
    have hzmem : z ∈ s₂.1.2 := by
      rcases hor with ⟨hz, he⟩ | ⟨_, he⟩
      · rw [he]; exact hz
      · rw [he]; exact List.mem_append_right _ (List.mem_singleton.mpr rfl)
    refine ⟨z, hcomb, ?_⟩
    rw [if_neg hc]
    refine ⟨hzmem, ?_⟩
    rw [hM, getD_set_self s.2 t.2.1 _ ([], []) (by rw [hsh.1]; exact hp)]
    apply ent_setM_self
    · rw [(hsh.2 t.2.1).2.1]
      exact hi
    · rw [((hsh.2 t.2.1).2.2) t.2.2.1]
      exact hj

theorem vaStep_preserves {L : List (List Vec)} {e : Vec} {nm : Nat}
    {s s₂ : VaState} {t t' : Bool × Nat × Nat × Nat}
    (h : vaStep L e nm s t = Except.ok s₂)
    (hc : vaClaim L e nm s t') : vaClaim L e nm s₂ t' := by
  obtain ⟨c, p, i, j⟩ := t
  obtain ⟨c', p', i', j'⟩ := t'
  rcases vaStep_ok h with ⟨z, hcomb, hfacts⟩
  rcases hc with ⟨z', hcomb', hcl⟩
  cases c with
  | false =>
    simp only [if_pos rfl] at hfacts
    rcases hfacts with ⟨h12, hor, hM⟩
    cases c' with
    | false =>
      simp only [if_pos rfl] at hcl ⊢
      rcases hcl with ⟨hz', he1, he2⟩
      have hzmem : z' ∈ s₂.1.1 := by
        rcases hor with ⟨_, he⟩ | ⟨_, he⟩
        · rw [he]; exact hz'
        · rw [he]; exact List.mem_append_left _ hz'
      have hidx : s₂.1.1.indexOf z' = s.1.1.indexOf z' :=
        indexOf_stable hor hz'
      refine ⟨z', hcomb', hzmem, ?_, ?_⟩
      all_goals rw [hM, hidx]
      all_goals by_cases hpp : p = p'
      case pos =>
        subst hpp
        by_cases hpl : p < s.2.length
        · rw [getD_set_self s.2 p _ ([], []) hpl]
          by_cases hA : i' = i ∧ j' = j
          · have ht : z' = z := by
              rcases hA with ⟨rfl, rfl⟩
              rw [hcomb'] at hcomb
              exact Except.ok.inj hcomb
            subst ht
            rcases ent_set2_val (s.2.getD p ([], [])).1 i j
                (s₂.1.1.indexOf z') i' j' (Or.inl hA) with hv | hv
            · rw [hv, hidx]
            · rw [hv]
              exact he1
          · by_cases hB : i' = j ∧ j' = i
            · have ht : z' = z := by
                rcases hB with ⟨rfl, rfl⟩
                rw [vaComb_swap L e nm p i' j'] at hcomb'
                rw [hcomb'] at hcomb
                exact Except.ok.inj hcomb
              subst ht
              rcases ent_set2_val (s.2.getD p ([], [])).1 i j
                  (s₂.1.1.indexOf z') i' j' (Or.inr hB) with hv | hv
              · rw [hv, hidx]
              · rw [hv]
                exact he1
            · rw [ent_set2_other (s.2.getD p ([], [])).1 i j _ i' j' hA hB]
              exact he1
        · rw [set_of_le s.2 p _ (by omega)]
          exact he1
      case neg =>
        rw [getD_set_ne s.2 p p' _ ([], []) hpp]
        exact he1
      case pos =>
        subst hpp
        by_cases hpl : p < s.2.length
        · rw [getD_set_self s.2 p _ ([], []) hpl]
          by_cases hA : i' = i ∧ j' = j
          · have ht : z' = z := by
              rcases hA with ⟨rfl, rfl⟩
              rw [hcomb'] at hcomb
              exact Except.ok.inj hcomb
            subst ht
            rcases ent_set2_val (s.2.getD p ([], [])).1 i j
                (s₂.1.1.indexOf z') j' i' (Or.inr ⟨hA.2, hA.1⟩) with hv | hv
            · rw [hv, hidx]
            · rw [hv]
              exact he2
          · by_cases hB : i' = j ∧ j' = i
            · have ht : z' = z := by
                rcases hB with ⟨rfl, rfl⟩
                rw [vaComb_swap L e nm p i' j'] at hcomb'
                rw [hcomb'] at hcomb
                exact Except.ok.inj hcomb
              subst ht
              rcases ent_set2_val (s.2.getD p ([], [])).1 i j
                  (s₂.1.1.indexOf z') j' i' (Or.inl ⟨hB.2, hB.1⟩) with hv | hv
              · rw [hv, hidx]
              · rw [hv]
                exact he2
            · rw [ent_set2_other (s.2.getD p ([], [])).1 i j _ j' i'
                (fun hh => hB ⟨hh.2, hh.1⟩) (fun hh => hA ⟨hh.2, hh.1⟩)]
              exact he2
        · rw [set_of_le s.2 p _ (by omega)]
          exact he2
      case neg =>
        rw [getD_set_ne s.2 p p' _ ([], []) hpp]
        exact he2
    | true =>
      simp only [if_neg (show ¬ ((true : Bool) = false) by decide)] at hcl ⊢
      rcases hcl with ⟨hz', he1⟩
      refine ⟨z', hcomb', ?_, ?_⟩
      · rw [h12]
        exact hz'
      · rw [h12, hM]
        by_cases hpp : p = p'
        · subst hpp
          by_cases hpl : p < s.2.length
          · rw [getD_set_self s.2 p _ ([], []) hpl]
            exact he1
          · rw [set_of_le s.2 p _ (by omega)]
            exact he1
        · rw [getD_set_ne s.2 p p' _ ([], []) hpp]
          exact he1
  | true =>
    simp only [if_neg (show ¬ ((true : Bool) = false) by decide)] at hfacts
    rcases hfacts with ⟨h11, hor, hM⟩
    cases c' with
    | false =>
      simp only [if_pos rfl] at hcl ⊢
      rcases hcl with ⟨hz', he1, he2⟩
      refine ⟨z', hcomb', ?_, ?_, ?_⟩
      · rw [h11]
        exact hz'
      all_goals rw [h11, hM]
      all_goals by_cases hpp : p = p'
      case pos =>
        subst hpp
        by_cases hpl : p < s.2.length
        · rw [getD_set_self s.2 p _ ([], []) hpl]
          exact he1
        · rw [set_of_le s.2 p _ (by omega)]
          exact he1
      case neg =>
        rw [getD_set_ne s.2 p p' _ ([], []) hpp]
        exact he1
      case pos =>
        subst hpp
        by_cases hpl : p < s.2.length
        · rw [getD_set_self s.2 p _ ([], []) hpl]
          exact he2
        · rw [set_of_le s.2 p _ (by omega)]
          exact he2
      case neg =>
        rw [getD_set_ne s.2 p p' _ ([], []) hpp]
        exact he2
    | true =>
      simp only [if_neg (show ¬ ((true : Bool) = false) by decide)] at hcl ⊢
      rcases hcl with ⟨hz', he1⟩
      have hzmem : z' ∈ s₂.1.2 := by
        rcases hor with ⟨_, he⟩ | ⟨_, he⟩
        · rw [he]; exact hz'
        · rw [he]; exact List.mem_append_left _ hz'
      have hidx : s₂.1.2.indexOf z' = s.1.2.indexOf z' :=
        indexOf_stable hor hz'
      refine ⟨z', hcomb', hzmem, ?_⟩
      rw [hM, hidx]
      by_cases hpp : p = p'
      · subst hpp
        by_cases hpl : p < s.2.length
        · rw [getD_set_self s.2 p _ ([], []) hpl]
          by_cases hA : i' = i ∧ j' = j
          · have ht : z' = z := by
              rcases hA with ⟨rfl, rfl⟩
              rw [hcomb'] at hcomb
              exact Except.ok.inj hcomb
            subst ht
            rcases hA with ⟨rfl, rfl⟩
            rcases ent_setM_val (s.2.getD p ([], [])).2 i' j'
                (s₂.1.2.indexOf z') with hv | hv
            · rw [hv, hidx]
            · rw [hv]
              exact he1
          · rw [ent_setM_ne (s.2.getD p ([], [])).2 i j _ i' j' hA]
            exact he1
        · rw [set_of_le s.2 p _ (by omega)]
          exact he1
      · rw [getD_set_ne s.2 p p' _ ([], []) hpp]
        exact he1

theorem vaFold_inv {L : List (List Vec)} {e : Vec} {nm : Nat}
    {N : List (IdxMat × IdxMat)} :
    ∀ (vs : List (Bool × Nat × Nat × Nat)) (s s' : VaState),
    List.foldlM (vaStep L e nm) s vs = Except.ok s' →
    (∀ u ∈ vs, vaRange N u) →
    s.1.1.Nodup → s.1.2.Nodup → SameShapeP s.2 N →
    (s'.1.1.Nodup ∧ s'.1.2.Nodup ∧ SameShapeP s'.2 N ∧
     s.1.1 <+: s'.1.1 ∧ s.1.2 <+: s'.1.2 ∧
     (∀ t', vaClaim L e nm s t' → vaClaim L e nm s' t') ∧
     (∀ u ∈ vs, vaClaim L e nm s' u)) := by
  intro vs
  induction vs with
  | nil =>
    intro s s' h _ hnd1 hnd2 hsh
    rw [List.foldlM_nil] at h
    have hss : s = s' := by
      injection h
    subst hss
    exact ⟨hnd1, hnd2, hsh, ⟨[], List.append_nil _⟩, ⟨[], List.append_nil _⟩,
      fun _ hc => hc, fun u hu => absurd hu (List.not_mem_nil u)⟩
  | cons u us ih =>
    intro s s' h hrange hnd1 hnd2 hsh
    rw [List.foldlM_cons] at h
    cases hstep : vaStep L e nm s u with
    | error msg =>
      rw [hstep] at h
      simp only [Bind.bind, Except.bind] at h
      exact Except.noConfusion h
    | ok s₁ =>
      rw [hstep] at h
      simp only [Bind.bind, Except.bind] at h
      have hu := hrange u (List.mem_cons_self u us)
      have hpools := vaStep_pools hstep
      have hsh₁ := vaStep_shape hstep hsh
      have hclaim₁ := vaStep_claim hstep hsh hu
      rcases ih s₁ s' h (fun v hv => hrange v (List.mem_cons_of_mem u hv))
        (hpools.1 hnd1) (hpools.2.1 hnd2) hsh₁ with
        ⟨hnd1', hnd2', hsh', hgrow1', hgrow2', htrans', hclaims'⟩
      refine ⟨hnd1', hnd2', hsh', hpools.2.2.1.trans hgrow1',
        hpools.2.2.2.trans hgrow2', ?_, ?_⟩
      · intro t' hc
        exact htrans' t' (vaStep_preserves hstep hc)
      · intro v hv
        rcases List.mem_cons.mp hv with rfl | hv2
        · exact htrans' v hclaim₁
        · exact hclaims' v hv2

theorem mem_vaVisits (L : List (List Vec)) (Q : Nat) (c : Bool)
    (p i j : Nat) :
    (c, p, i, j) ∈ vaVisits L Q ↔
      (1 ≤ p ∧ p < 1 + Q ∧
       if c = false then i ≤ j ∧ j < (L.getD p []).length
       else i < (L.getD p []).length ∧ j < (L.getD (p - 1) []).length) := by
  unfold vaVisits
  simp only [List.mem_flatMap, List.mem_append, List.mem_map,
    List.mem_range, List.mem_range'_1]
  constructor
  · rintro ⟨p', hp', hmem⟩
    rcases hmem with ⟨i', hi', j', hj', heq⟩ | ⟨i', hi', j', hj', heq⟩
    · obtain ⟨rfl, rfl, rfl, rfl⟩ :
          (false : Bool) = c ∧ p' = p ∧ i' = i ∧ j' = j := by
        refine ⟨congrArg Prod.fst heq, ?_, ?_, ?_⟩
        · exact congrArg (fun x => x.2.1) heq
        · exact congrArg (fun x => x.2.2.1) heq
        · exact congrArg (fun x => x.2.2.2) heq
      rw [if_pos rfl]
      exact ⟨hp'.1, hp'.2, by omega, by omega⟩
    · obtain ⟨rfl, rfl, rfl, rfl⟩ :
          (true : Bool) = c ∧ p' = p ∧ i' = i ∧ j' = j := by
        refine ⟨congrArg Prod.fst heq, ?_, ?_, ?_⟩
        · exact congrArg (fun x => x.2.1) heq
        · exact congrArg (fun x => x.2.2.1) heq
        · exact congrArg (fun x => x.2.2.2) heq
      rw [if_neg (show ¬ ((true : Bool) = false) by decide)]
      exact ⟨hp'.1, hp'.2, hi', hj'⟩
  · rintro ⟨hp1, hp2, hrest⟩
    refine ⟨p, ⟨hp1, hp2⟩, ?_⟩
    cases c with
    | false =>
      rw [if_pos rfl] at hrest
      exact Or.inl ⟨i, by omega, j, ⟨hrest.1, by omega⟩, rfl⟩
    | true =>
      rw [if_neg (show ¬ ((true : Bool) = false) by decide)] at hrest
      exact Or.inr ⟨i, hrest.1, j, hrest.2, rfl⟩

theorem getD_map_range1 {α : Type _} (f : Nat → α) (s Q k : Nat) (d : α)
    (h : k < Q) : ((List.range' s Q).map f).getD k d = f (s + k) := by
  induction Q generalizing s k with
  | zero => omega
  | succ Q ih =>
    rw [List.range'_succ, List.map_cons]
    cases k with
    | zero =>
      rw [List.getD_cons_zero, Nat.add_zero]
    | succ k =>
      rw [List.getD_cons_succ, ih (s + 1) k (by omega)]
      congr 1
      omega

theorem Varith_ok_inv {m n : Int} {Z0 Z1 : List Vec}
    {M : List (IdxMat × IdxMat)}
    (h : Varith m n = Except.ok (some ((Z0, Z1), M))) :
    ¬ (m < 0 ∨ n < 0) ∧
    List.foldlM (vaStep (B m n) (e1 n.toNat) (n.toNat * m.toNat))
      (([smul (n.toNat * m.toNat + 1) (e1 n.toNat)], ([] : List Vec)),
        ([[0]], ([] : IdxMat)) ::
          (List.range' 1 ((n.toNat * m.toNat + 1) / 2)).map (fun p =>
            (zeroM ((B m n).getD p []).length ((B m n).getD p []).length,
             zeroM ((B m n).getD p []).length
               ((B m n).getD (p - 1) []).length)))
      (vaVisits (B m n) ((n.toNat * m.toNat + 1) / 2))
      = Except.ok ((Z0, Z1), M) := by
  by_cases hneg : m < 0 ∨ n < 0
  · unfold Varith at h
    rw [if_pos hneg] at h
    injection h with h2
    exact Option.noConfusion h2
  · refine ⟨hneg, ?_⟩
    unfold Varith at h
    rw [if_neg hneg] at h
    dsimp only at h
    cases hf : List.foldlM (vaStep (B m n) (e1 n.toNat) (n.toNat * m.toNat))
        (([smul (n.toNat * m.toNat + 1) (e1 n.toNat)], ([] : List Vec)),
          ([[0]], ([] : IdxMat)) ::
            (List.range' 1 ((n.toNat * m.toNat + 1) / 2)).map (fun p =>
              (zeroM ((B m n).getD p []).length ((B m n).getD p []).length,
               zeroM ((B m n).getD p []).length
                 ((B m n).getD (p - 1) []).length)))
        (vaVisits (B m n) ((n.toNat * m.toNat + 1) / 2)) with
    | error msg =>
      rw [hf] at h
      simp only [Bind.bind, Except.bind] at h
      exact Except.noConfusion h
    | ok s =>
      rw [hf] at h
      simp only [Bind.bind, Except.bind] at h
      injection h with h2
      injection h2 with h3
      rw [h3]

theorem va_range_all (m n : Int) :
    ∀ u ∈ vaVisits (B m n) ((n.toNat * m.toNat + 1) / 2),
      vaRange (([[0]], ([] : IdxMat)) ::
        (List.range' 1 ((n.toNat * m.toNat + 1) / 2)).map (fun p =>
          (zeroM ((B m n).getD p []).length ((B m n).getD p []).length,
           zeroM ((B m n).getD p []).length
             ((B m n).getD (p - 1) []).length))) u := by
  intro u hu
  obtain ⟨c, p, i, j⟩ := u
  rcases (mem_vaVisits _ _ c p i j).mp hu with ⟨hp1, hp2, hrest⟩
  obtain ⟨k, rfl⟩ : ∃ k, p = k + 1 := ⟨p - 1, by omega⟩
  have hget : ((([[0]], ([] : IdxMat)) ::
      (List.range' 1 ((n.toNat * m.toNat + 1) / 2)).map (fun p =>
        (zeroM ((B m n).getD p []).length ((B m n).getD p []).length,
         zeroM ((B m n).getD p []).length
           ((B m n).getD (p - 1) []).length))).getD (k + 1) ([], []))
      = (zeroM ((B m n).getD (k + 1) []).length
           ((B m n).getD (k + 1) []).length,
         zeroM ((B m n).getD (k + 1) []).length
           ((B m n).getD k []).length) := by
    rw [List.getD_cons_succ, getD_map_range1 _ 1 _ k ([], []) (by omega)]
    have h1k : 1 + k = k + 1 := by omega
    rw [h1k]
    have h2k : k + 1 - 1 = k := by omega
    rw [h2k]
  refine ⟨?_, ?_⟩
  · show k + 1 < (([[0]], ([] : IdxMat)) ::
      (List.range' 1 ((n.toNat * m.toNat + 1) / 2)).map _).length
    rw [List.length_cons, List.length_map, List.length_range']
    omega
  · cases c with
    | false =>
      rw [if_pos rfl] at hrest ⊢
      rw [hget]
      refine ⟨?_, ?_, ?_⟩
      · intro k' hk'
        rw [zeroM_length] at hk'
        rw [zeroM_row_length _ _ k' hk', zeroM_length]
      · show i < (zeroM ((B m n).getD (k + 1) []).length
          ((B m n).getD (k + 1) []).length).length
        rw [zeroM_length]
        omega
      · show j < (zeroM ((B m n).getD (k + 1) []).length
          ((B m n).getD (k + 1) []).length).length
        rw [zeroM_length]
        omega
    | true =>
      rw [if_neg (show ¬ ((true : Bool) = false) by decide)] at hrest ⊢
      rw [hget]
      refine ⟨?_, ?_⟩
      · show i < (zeroM ((B m n).getD (k + 1) []).length
          ((B m n).getD k []).length).length
        rw [zeroM_length]
        exact hrest.1
      · show j < ((zeroM ((B m n).getD (k + 1) []).length
          ((B m n).getD k []).length).getD i []).length
        rw [zeroM_row_length _ _ i hrest.1]
        have h2k : k + 1 - 1 = k := by omega
        rw [h2k] at hrest
        exact hrest.2

/-- C8: for `m, n >= 0`, the pool `Z` returned by `Vgeom(m,n)` and the
pools `Z[0]`, `Z[1]` returned by `Varith(m,n)` contain no duplicate
entries; every index stored in the pairing matrices is the first-seen
position (`List.indexOf`) of the combined vector in its pool; and every
loop iteration of either builder only appends to the pools, so the
index of a vector already in a pool never changes. -/
theorem claim_C8_pool_invariants (m n : Int) (hm : 0 ≤ m) (hn : 0 ≤ n)
    (Z : List Vec) (M : List IdxMat) (Z0 Z1 : List Vec)
    (MA : List (IdxMat × IdxMat))
    (hG : Vgeom m n = Except.ok (some (Z, M)))
    (hA : Varith m n = Except.ok (some ((Z0, Z1), MA))) :
    Z.Nodup ∧ Z0.Nodup ∧ Z1.Nodup ∧
    (∀ p i j, p ≤ n.toNat * m.toNat / 2 →
      i < ((B m n).getD p []).length → j < ((B m n).getD p []).length →
      ∃ z, vgComb (B m n) (e1 n.toNat) (n.toNat * m.toNat) (p, i, j)
          = Except.ok z ∧ z ∈ Z ∧ ent (M.getD p []) i j = Z.indexOf z) ∧
    (∀ p i j, 1 ≤ p → p ≤ (n.toNat * m.toNat + 1) / 2 →
      i < ((B m n).getD p []).length → j < ((B m n).getD p []).length →
      ∃ z, vaComb (B m n) (e1 n.toNat) (n.toNat * m.toNat) (false, p, i, j)
          = Except.ok z ∧ z ∈ Z0 ∧
        ent (MA.getD p ([], [])).1 i j = Z0.indexOf z) ∧
    (∀ p i j, 1 ≤ p → p ≤ (n.toNat * m.toNat + 1) / 2 →
      i < ((B m n).getD p []).length →
      j < ((B m n).getD (p - 1) []).length →
      ∃ z, vaComb (B m n) (e1 n.toNat) (n.toNat * m.toNat) (true, p, i, j)
          = Except.ok z ∧ z ∈ Z1 ∧
        ent (MA.getD p ([], [])).2 i j = Z1.indexOf z) ∧
    (∀ (s s₂ : VgState) (t : Nat × Nat × Nat),
      vgStep (B m n) (e1 n.toNat) (n.toNat * m.toNat) s t = Except.ok s₂ →
      s.1 <+: s₂.1 ∧ ∀ w ∈ s.1, s₂.1.indexOf w = s.1.indexOf w) ∧
    (∀ (s s₂ : VaState) (t : Bool × Nat × Nat × Nat),
      vaStep (B m n) (e1 n.toNat) (n.toNat * m.toNat) s t = Except.ok s₂ →
      (s.1.1 <+: s₂.1.1 ∧ s.1.2 <+: s₂.1.2) ∧
      (∀ w ∈ s.1.1, s₂.1.1.indexOf w = s.1.1.indexOf w) ∧
      (∀ w ∈ s.1.2, s₂.1.2.indexOf w = s.1.2.indexOf w)) := by
  rcases Vgeom_ok_inv hG with ⟨hnegG, hfoldG⟩
  rcases Varith_ok_inv hA with ⟨hnegA, hfoldA⟩
  have hge := B_length_ge m n hm hn
  have hrangeG : ∀ u ∈ vgVisits (B m n) (n.toNat * m.toNat / 2 + 1),
      u.1 < (((B m n).take (n.toNat * m.toNat / 2 + 1)).map
        (fun x => zeroM x.length x.length)).length ∧
      u.2.1 < ((((B m n).take (n.toNat * m.toNat / 2 + 1)).map
        (fun x => zeroM x.length x.length)).getD u.1 []).length ∧
      u.2.2 < ((((B m n).take (n.toNat * m.toNat / 2 + 1)).map
        (fun x => zeroM x.length x.length)).getD u.1 []).length ∧
      SquareAt (((B m n).take (n.toNat * m.toNat / 2 + 1)).map
        (fun x => zeroM x.length x.length)) u.1 := by
    intro u hu
    obtain ⟨p, i, j⟩ := u
    rcases (mem_vgVisits _ _ p i j).mp hu with ⟨hp, hij, hj⟩
    have hNlen : (((B m n).take (n.toNat * m.toNat / 2 + 1)).map
        (fun x => zeroM x.length x.length)).length
          = n.toNat * m.toNat / 2 + 1 := by
      rw [List.length_map, List.length_take]
      omega
    have hNget := N_getD (B m n) (n.toNat * m.toNat / 2 + 1) p hp hge
    refine ⟨by omega, ?_, ?_, ?_⟩
    · show i < ((((B m n).take (n.toNat * m.toNat / 2 + 1)).map
        (fun x => zeroM x.length x.length)).getD p []).length
      rw [hNget, zeroM_length]
      omega
    · show j < ((((B m n).take (n.toNat * m.toNat / 2 + 1)).map
        (fun x => zeroM x.length x.length)).getD p []).length
      rw [hNget, zeroM_length]
      omega
    · show SquareAt (((B m n).take (n.toNat * m.toNat / 2 + 1)).map
        (fun x => zeroM x.length x.length)) p
      intro k hk
      rw [hNget] at hk ⊢
      rw [zeroM_length] at hk
      rw [zeroM_row_length _ _ k hk, zeroM_length]
  have hinvG := vgFold_inv (vgVisits (B m n) (n.toNat * m.toNat / 2 + 1))
    (([] : List Vec), ((B m n).take (n.toNat * m.toNat / 2 + 1)).map
      (fun x => zeroM x.length x.length)) (Z, M) hfoldG hrangeG
    (List.nodup_nil) (SameShape_refl _)
  have hinvA := vaFold_inv (vaVisits (B m n) ((n.toNat * m.toNat + 1) / 2))
    (([smul (n.toNat * m.toNat + 1) (e1 n.toNat)], ([] : List Vec)),
      ([[0]], ([] : IdxMat)) ::
        (List.range' 1 ((n.toNat * m.toNat + 1) / 2)).map (fun p =>
          (zeroM ((B m n).getD p []).length ((B m n).getD p []).length,
           zeroM ((B m n).getD p []).length
             ((B m n).getD (p - 1) []).length)))
    ((Z0, Z1), MA) hfoldA (va_range_all m n)
    (List.nodup_singleton _) (List.nodup_nil) (SameShapeP_refl _)
  rcases hinvG with ⟨hndG, _, _, _, hclaimsG⟩
  rcases hinvA with ⟨hnd0, hnd1, _, _, _, _, hclaimsA⟩
  refine ⟨hndG, hnd0, hnd1, ?_, ?_, ?_, ?_, ?_⟩
  · intro p i j hp hi hj
    by_cases hij : i ≤ j
    · have hcl := hclaimsG (p, i, j)
        ((mem_vgVisits _ _ p i j).mpr ⟨by omega, hij, hj⟩)
      rcases hcl with ⟨z, hcomb, hzmem, he1, _⟩
      exact ⟨z, hcomb, hzmem, he1⟩
    · have hcl := hclaimsG (p, j, i)
        ((mem_vgVisits _ _ p j i).mpr ⟨by omega, by omega, hi⟩)
      rcases hcl with ⟨z, hcomb, hzmem, _, he2⟩
      refine ⟨z, ?_, hzmem, he2⟩
      rw [vgComb_swap]
      exact hcomb
  · intro p i j hp1 hp2 hi hj
    by_cases hij : i ≤ j
    · have hcl := hclaimsA (false, p, i, j)
        ((mem_vaVisits _ _ false p i j).mpr
          ⟨hp1, by omega, by rw [if_pos rfl]; exact ⟨hij, hj⟩⟩)
      rcases hcl with ⟨z, hcomb, hcl2⟩
      rw [if_pos rfl] at hcl2
      exact ⟨z, hcomb, hcl2.1, hcl2.2.1⟩
    · have hcl := hclaimsA (false, p, j, i)
        ((mem_vaVisits _ _ false p j i).mpr
          ⟨hp1, by omega, by rw [if_pos rfl]; exact ⟨by omega, hi⟩⟩)
      rcases hcl with ⟨z, hcomb, hcl2⟩
      rw [if_pos rfl] at hcl2
      refine ⟨z, ?_, hcl2.1, hcl2.2.2⟩
      rw [vaComb_swap]
      exact hcomb
  · intro p i j hp1 hp2 hi hj
    have hcl := hclaimsA (true, p, i, j)
      ((mem_vaVisits _ _ true p i j).mpr
        ⟨hp1, by omega, by
          rw [if_neg (show ¬ ((true : Bool) = false) by decide)]
          exact ⟨hi, hj⟩⟩)
    rcases hcl with ⟨z, hcomb, hcl2⟩
    rw [if_neg (show ¬ ((true : Bool) = false) by decide)] at hcl2
    exact ⟨z, hcomb, hcl2.1, hcl2.2⟩
  · intro s s₂ t h
    rcases vgStep_ok h with ⟨z, _, hor, _⟩
    refine ⟨vgStep_grows h, fun w hw => indexOf_stable hor hw⟩
  · intro s s₂ t h
    have hpools := vaStep_pools h
    rcases vaStep_ok h with ⟨z, hcomb, hfacts⟩
    refine ⟨⟨hpools.2.2.1, hpools.2.2.2⟩, ?_, ?_⟩
    · intro w hw
      by_cases hc : t.1 = false
      · rw [if_pos hc] at hfacts
        exact indexOf_stable hfacts.2.1 hw
      · rw [if_neg hc] at hfacts
        rw [hfacts.1]
    · intro w hw
      by_cases hc : t.1 = false
      · rw [if_pos hc] at hfacts
        rw [hfacts.1]
      · rw [if_neg hc] at hfacts
        exact indexOf_stable hfacts.2.1 hw

/-- Witness for C8 at the concrete input `(m,n) = (1,1)`. -/
theorem claim_C8_witness :
    (0 : Int) ≤ 1 ∧
    Vgeom 1 1 = Except.ok (some ([[1]], [[[0]]])) ∧
    Varith 1 1 = Except.ok (some (([[2]], [[1]]),
      [([[0]], ([] : IdxMat)), ([[0]], [[0]])])) ∧
    (([[1]] : List Vec).Nodup ∧ ([[2]] : List Vec).Nodup ∧
     ([[1]] : List Vec).Nodup ∧
     (∀ p i j, p ≤ (1 : Int).toNat * (1 : Int).toNat / 2 →
       i < ((B 1 1).getD p []).length → j < ((B 1 1).getD p []).length →
       ∃ z, vgComb (B 1 1) (e1 (1 : Int).toNat)
           ((1 : Int).toNat * (1 : Int).toNat) (p, i, j)
           = Except.ok z ∧ z ∈ ([[1]] : List Vec) ∧
         ent (([[[0]]] : List IdxMat).getD p []) i j
           = ([[1]] : List Vec).indexOf z) ∧
     (∀ p i j, 1 ≤ p → p ≤ ((1 : Int).toNat * (1 : Int).toNat + 1) / 2 →
       i < ((B 1 1).getD p []).length → j < ((B 1 1).getD p []).length →
       ∃ z, vaComb (B 1 1) (e1 (1 : Int).toNat)
           ((1 : Int).toNat * (1 : Int).toNat) (false, p, i, j)
           = Except.ok z ∧ z ∈ ([[2]] : List Vec) ∧
         ent (([([[0]], ([] : IdxMat)), ([[0]], [[0]])]
            : List (IdxMat × IdxMat)).getD p ([], [])).1 i j
           = ([[2]] : List Vec).indexOf z) ∧
     (∀ p i j, 1 ≤ p → p ≤ ((1 : Int).toNat * (1 : Int).toNat + 1) / 2 →
       i < ((B 1 1).getD p []).length →
       j < ((B 1 1).getD (p - 1) []).length →
       ∃ z, vaComb (B 1 1) (e1 (1 : Int).toNat)
           ((1 : Int).toNat * (1 : Int).toNat) (true, p, i, j)
           = Except.ok z ∧ z ∈ ([[1]] : List Vec) ∧
         ent (([([[0]], ([] : IdxMat)), ([[0]], [[0]])]
            : List (IdxMat × IdxMat)).getD p ([], [])).2 i j
           = ([[1]] : List Vec).indexOf z) ∧
     (∀ (s s₂ : VgState) (t : Nat × Nat × Nat),
       vgStep (B 1 1) (e1 (1 : Int).toNat)
           ((1 : Int).toNat * (1 : Int).toNat) s t = Except.ok s₂ →
       s.1 <+: s₂.1 ∧ ∀ w ∈ s.1, s₂.1.indexOf w = s.1.indexOf w) ∧
     (∀ (s s₂ : VaState) (t : Bool × Nat × Nat × Nat),
       vaStep (B 1 1) (e1 (1 : Int).toNat)
           ((1 : Int).toNat * (1 : Int).toNat) s t = Except.ok s₂ →
       (s.1.1 <+: s₂.1.1 ∧ s.1.2 <+: s₂.1.2) ∧
       (∀ w ∈ s.1.1, s₂.1.1.indexOf w = s.1.1.indexOf w) ∧
       (∀ w ∈ s.1.2, s₂.1.2.indexOf w = s.1.2.indexOf w))) :=
  ⟨by decide, by decide, by decide,
    claim_C8_pool_invariants 1 1 (by decide) (by decide) [[1]] [[[0]]]
      [[2]] [[1]] [([[0]], ([] : IdxMat)), ([[0]], [[0]])]
      (by decide) (by decide)⟩

theorem setMQ_length (A : QMat) (i j : Nat) (v : Rat) :
    (setMQ A i j v).length = A.length := List.length_set A i _

theorem setMQ_getD_ne (A : QMat) (i j : Nat) (v : Rat) (k : Nat)
    (h : i ≠ k) : (setMQ A i j v).getD k [] = A.getD k [] :=
  getD_set_ne A i k _ [] h

theorem setMQ_row_of_lt (A : QMat) (i j : Nat) (v : Rat)
    (h : i < A.length) :
    (setMQ A i j v).getD i [] = (A.getD i []).set j v :=
  getD_set_self A i _ [] h

theorem setMQ_of_ge (A : QMat) (i j : Nat) (v : Rat)
    (h : A.length ≤ i) : setMQ A i j v = A := set_of_le A i _ h

/-- The inner entry-replacement loop of `aHodge` on row `i`, first `c`
columns. -/
def ahRow (f : Nat → Rat) (i c : Nat) (A : QMat) : QMat :=
  (List.range c).foldl (fun A j =>
    setMQ A i j (f ((A.getD i []).getD j 0).num.toNat)) A

theorem ahRepl_eq_rows (f : Nat → Rat) (r c : Nat) (A : QMat) :
    ahRepl f r c A = (List.range r).foldl (fun A i => ahRow f i c A) A :=
  rfl

theorem ahRow_succ (f : Nat → Rat) (i c : Nat) (A : QMat) :
    ahRow f i (c + 1) A = setMQ (ahRow f i c A) i c
      (f (((ahRow f i c A).getD i []).getD c 0).num.toNat) := by
  unfold ahRow
  rw [List.range_succ, List.foldl_append, List.foldl_cons, List.foldl_nil]

theorem ahRow_length (f : Nat → Rat) (i c : Nat) (A : QMat) :
    (ahRow f i c A).length = A.length := by
  induction c with
  | zero => rfl
  | succ c ih => rw [ahRow_succ, setMQ_length, ih]

theorem ahRow_getD_ne (f : Nat → Rat) (i c : Nat) (A : QMat) (k : Nat)
    (h : i ≠ k) : (ahRow f i c A).getD k [] = A.getD k [] := by
  induction c with
  | zero => rfl
  | succ c ih => rw [ahRow_succ, setMQ_getD_ne _ _ _ _ _ h, ih]

theorem ahRow_row_length (f : Nat → Rat) (i c : Nat) (A : QMat) :
    ((ahRow f i c A).getD i []).length = (A.getD i []).length := by
  induction c with
  | zero => rfl
  | succ c ih =>
    rw [ahRow_succ]
    by_cases h : i < (ahRow f i c A).length
    · rw [setMQ_row_of_lt _ _ _ _ h, List.length_set, ih]
    · rw [setMQ_of_ge _ _ _ _ (by omega), ih]

theorem ahRow_getD_ge (f : Nat → Rat) (i c : Nat) (A : QMat) (j : Nat)
    (h : c ≤ j) :
    ((ahRow f i c A).getD i []).getD j 0 = (A.getD i []).getD j 0 := by
  induction c with
  | zero => rfl
  | succ c ih =>
    rw [ahRow_succ]
    by_cases hlt : i < (ahRow f i c A).length
    · rw [setMQ_row_of_lt _ _ _ _ hlt,
        getD_set_ne _ c j _ 0 (by omega), ih (by omega)]
    · rw [setMQ_of_ge _ _ _ _ (by omega), ih (by omega)]

theorem ahRow_ent (f : Nat → Rat) (i c : Nat) (A : QMat) (j : Nat)
    (hi : i < A.length) (hj : j < c) (hjl : j < (A.getD i []).length) :
    ((ahRow f i c A).getD i []).getD j 0
      = f ((A.getD i []).getD j 0).num.toNat := by
  induction c with
  | zero => omega
  | succ c ih =>
    rw [ahRow_succ,
      setMQ_row_of_lt _ _ _ _ (by rw [ahRow_length]; exact hi)]
    by_cases hjc : j = c
    · subst hjc
      rw [getD_set_self _ j _ 0 (by rw [ahRow_row_length]; exact hjl),
        ahRow_getD_ge f i j A j (Nat.le_refl j)]
    · rw [getD_set_ne _ c j _ 0 (fun h => hjc h.symm), ih (by omega)]

theorem ahRepl_succ (f : Nat → Rat) (r c : Nat) (A : QMat) :
    ahRepl f (r + 1) c A = ahRow f r c (ahRepl f r c A) := by
  rw [ahRepl_eq_rows, ahRepl_eq_rows, List.range_succ, List.foldl_append,
    List.foldl_cons, List.foldl_nil]

theorem ahRepl_length (f : Nat → Rat) (r c : Nat) (A : QMat) :
    (ahRepl f r c A).length = A.length := by
  induction r with
  | zero => rfl
  | succ r ih => rw [ahRepl_succ, ahRow_length, ih]

theorem ahRepl_getD_ge (f : Nat → Rat) (r c : Nat) (A : QMat) (k : Nat)
    (h : r ≤ k) : (ahRepl f r c A).getD k [] = A.getD k [] := by
  induction r with
  | zero => rfl
  | succ r ih =>
    rw [ahRepl_succ, ahRow_getD_ne f r c _ k (by omega), ih (by omega)]

theorem ahRepl_row_length (f : Nat → Rat) (r c : Nat) (A : QMat)
    (k : Nat) :
    ((ahRepl f r c A).getD k []).length = (A.getD k []).length := by
  induction r with
  | zero => rfl
  | succ r ih =>
    rw [ahRepl_succ]
    by_cases hk : k = r
    · subst hk
      rw [ahRow_row_length, ih]
    · rw [ahRow_getD_ne f r c _ k (fun h => hk h.symm), ih]

theorem ahRepl_ent (f : Nat → Rat) (r c : Nat) (A : QMat) (k j : Nat)
    (hk : k < r) (hkA : k < A.length) (hj : j < c)
    (hjl : j < (A.getD k []).length) :
    ((ahRepl f r c A).getD k []).getD j 0
      = f ((A.getD k []).getD j 0).num.toNat := by
  induction r with
  | zero => omega
  | succ r ih =>
    rw [ahRepl_succ]
    by_cases hkr : k = r
    · subst hkr
      rw [ahRow_ent f k c _ j (by rw [ahRepl_length]; exact hkA) hj
          (by rw [ahRepl_getD_ge f k c A k (Nat.le_refl k)]; exact hjl),
        ahRepl_getD_ge f k c A k (Nat.le_refl k)]
    · rw [ahRow_getD_ne f r c _ k (fun h => hkr h.symm), ih (by omega)]

theorem castQ_length (P : IdxMat) : (castQ P).length = P.length :=
  List.length_map P _

theorem castQ_getD (P : IdxMat) (k : Nat) :
    (castQ P).getD k [] = (P.getD k []).map Nat.cast := by
  by_cases hk : k < P.length
  · unfold castQ
    rw [List.getD_eq_getElem _ _ (by rw [List.length_map]; exact hk),
      List.getElem_map, List.getD_eq_getElem _ _ hk]
  · rw [List.getD_eq_default _ _ (by rw [castQ_length]; omega),
      List.getD_eq_default _ _ (by omega)]
    rfl

theorem getD_map_cast (row : List Nat) (j : Nat) :
    (List.map (Nat.cast : Nat → Rat) row).getD j 0
      = ((row.getD j 0 : Nat) : Rat) := by
  by_cases hj : j < row.length
  · rw [List.getD_eq_getElem _ _ (by rw [List.length_map]; exact hj),
      List.getElem_map, List.getD_eq_getElem _ _ hj]
  · rw [List.getD_eq_default _ _ (by rw [List.length_map]; omega),
      List.getD_eq_default _ _ (by omega)]
    rfl

theorem num_toNat_cast (a : Nat) : ((a : Rat)).num.toNat = a := by
  rw [Rat.num_natCast, Int.toNat_natCast]

theorem getD_map_range {α : Type _} (g : Nat → α) (K i : Nat) (d : α)
    (h : i < K) : ((List.range K).map g).getD i d = g i := by
  rw [List.getD_eq_getElem _ _
      (by rw [List.length_map, List.length_range]; exact h),
    List.getElem_map, List.getElem_range]

theorem eq_of_getD {α : Type _} {l1 l2 : List α} (d : α)
    (hlen : l1.length = l2.length)
    (h : ∀ k, k < l1.length → l1.getD k d = l2.getD k d) : l1 = l2 := by
  apply List.ext_getElem hlen
  intro i h1 h2
  have := h i h1
  rwa [List.getD_eq_getElem _ _ h1, List.getD_eq_getElem _ _ h2] at this

theorem blockM_length (A Bq : QMat) (d d1 d2 : Nat) :
    (blockM A Bq d d1 d2).length = d + d2 := by
  unfold blockM transposeQ
  rw [List.length_append, List.length_map, List.length_range,
    List.length_map, List.length_map, List.length_range]

theorem blockM_row_top (A Bq : QMat) (d d1 d2 i : Nat) (hi : i < d) :
    (blockM A Bq d d1 d2).getD i [] = (A.getD i []) ++ (Bq.getD i []) := by
  unfold blockM
  rw [List.getD_eq_getElem _ _ (by
      rw [List.length_append, List.length_map, List.length_range]
      omega),
    List.getElem_append_left (by rw [List.length_map, List.length_range]; exact hi),
    List.getElem_map, List.getElem_range]

theorem blockM_row_bot (A Bq : QMat) (d d1 d2 i : Nat) (hd : d ≤ i)
    (hi : i < d + d2) :
    (blockM A Bq d d1 d2).getD i []
      = ((List.range d1).map (fun j => (Bq.getD j []).getD (i - d) 0))
          ++ List.replicate d2 0 := by
  unfold blockM transposeQ
  have hlen1 : (List.map (fun i => A.getD i [] ++ Bq.getD i [])
      (List.range d)).length = d := by
    rw [List.length_map, List.length_range]
  have hlen2 : (List.map (fun row => row ++ List.replicate d2 0)
      (List.map (fun i => List.map (fun j => (Bq.getD j []).getD i 0)
        (List.range d1)) (List.range d2))).length = d2 := by
    rw [List.length_map, List.length_map, List.length_range]
  rw [List.getD_eq_getElem _ _
      (by rw [List.length_append, hlen1, hlen2]; omega),
    List.getElem_append_right (by rw [hlen1]; omega)]
  simp only [hlen1, List.getElem_map, List.getElem_range]

theorem scaleM_length (c : Rat) (A : QMat) : (scaleM c A).length = A.length :=
  List.length_map A _

theorem scaleM_getD (c : Rat) (A : QMat) (i : Nat) :
    (scaleM c A).getD i [] = (A.getD i []).map (fun x => c * x) := by
  by_cases hi : i < A.length
  · unfold scaleM
    rw [List.getD_eq_getElem _ _ (by rw [List.length_map]; exact hi),
      List.getElem_map, List.getD_eq_getElem _ _ hi]
  · rw [List.getD_eq_default _ _ (by rw [scaleM_length]; omega),
      List.getD_eq_default _ _ (by omega)]
    rfl

theorem getD_map_mul (c : Rat) (row : List Rat) (j : Nat) :
    (row.map (fun x => c * x)).getD j 0 = c * row.getD j 0 := by
  by_cases hj : j < row.length
  · rw [List.getD_eq_getElem _ _ (by rw [List.length_map]; exact hj),
      List.getElem_map, List.getD_eq_getElem _ _ hj]
  · rw [List.getD_eq_default _ _ (by rw [List.length_map]; omega),
      List.getD_eq_default _ _ (by omega)]
    exact (mul_zero c).symm

theorem getD_append_lt {α : Type _} (l1 l2 : List α) (n : Nat) (d : α)
    (h : n < l1.length) : (l1 ++ l2).getD n d = l1.getD n d := by
  rw [List.getD_eq_getElem _ _ (by rw [List.length_append]; omega),
    List.getElem_append_left h, List.getD_eq_getElem _ _ h]

theorem getD_append_ge {α : Type _} (l1 l2 : List α) (n : Nat) (d : α)
    (h : l1.length ≤ n) :
    (l1 ++ l2).getD n d = l2.getD (n - l1.length) d := by
  by_cases h2 : n < l1.length + l2.length
  · rw [List.getD_eq_getElem _ _ (by rw [List.length_append]; omega),
      List.getElem_append_right (by omega),
      List.getD_eq_getElem _ _ (by omega)]
  · rw [List.getD_eq_default _ _ (by rw [List.length_append]; omega),
      List.getD_eq_default _ _ (by omega)]

theorem getD_replicate_lt {α : Type _} (k j : Nat) (x d : α) (h : j < k) :
    (List.replicate k x).getD j d = x := by
  rw [List.getD_eq_getElem _ _ (by rw [List.length_replicate]; exact h),
    List.getElem_replicate]

theorem headD_getD {α : Type _} (l : List α) (d : α) :
    l.headD d = l.getD 0 d := by
  cases l with
  | nil => rfl
  | cons a t => rfl

theorem blockM_row_len (A Bq : QMat) (d d1 : Nat)
    (hArow : ∀ k, k < d → (A.getD k []).length = d)
    (hBrow : ∀ k, k < d → (Bq.getD k []).length = d1)
    (k : Nat) (hk : k < d + d1) :
    ((blockM A Bq d d d1).getD k []).length = d + d1 := by
  by_cases hkd : k < d
  · rw [blockM_row_top _ _ _ _ _ k hkd, List.length_append,
      hArow k hkd, hBrow k hkd]
  · rw [blockM_row_bot _ _ _ _ _ k (by omega) hk, List.length_append,
      List.length_map, List.length_range, List.length_replicate]

theorem blockM_ent (A Bq : QMat) (d d1 : Nat) (f g : Nat → Nat → Rat)
    (hArow : ∀ k, k < d → (A.getD k []).length = d)
    (hBrow : ∀ k, k < d → (Bq.getD k []).length = d1)
    (hAent : ∀ k j, k < d → j < d → (A.getD k []).getD j 0 = f k j)
    (hBent : ∀ k j, k < d → j < d1 → (Bq.getD k []).getD j 0 = g k j)
    (k j : Nat) (hk : k < d + d1) (hj : j < d + d1) :
    ((blockM A Bq d d d1).getD k []).getD j 0 =
      (if k < d then if j < d then f k j else g k (j - d)
       else if j < d then g j (k - d) else 0) := by
  by_cases hkd : k < d
  · rw [blockM_row_top _ _ _ _ _ k hkd, if_pos hkd]
    by_cases hjd : j < d
    · rw [if_pos hjd,
        getD_append_lt _ _ j 0 (by rw [hArow k hkd]; exact hjd),
        hAent k j hkd hjd]
    · rw [if_neg hjd, getD_append_ge _ _ j 0 (by rw [hArow k hkd]; omega),
        hArow k hkd, hBent k (j - d) hkd (by omega)]
  · rw [blockM_row_bot _ _ _ _ _ k (by omega) hk, if_neg hkd]
    by_cases hjd : j < d
    · rw [if_pos hjd,
        getD_append_lt _ _ j 0
          (by rw [List.length_map, List.length_range]; exact hjd),
        getD_map_range _ _ j 0 hjd, hBent j (k - d) hjd (by omega)]
    · rw [if_neg hjd,
        getD_append_ge _ _ j 0
          (by rw [List.length_map, List.length_range]; omega),
        List.length_map, List.length_range]
      exact getD_replicate_lt d1 (j - d) 0 0 (by omega)

/-- The grade-`p` arithmetic block described by the specification:
`(-1)^p` times the block matrix `[[A,B],[Bt,0]]`, where `A(i,j)` is the
arithmetic degree of the pool vector indexed by the grade-`p`
self-pairing table, `B(i,j)` is one half of the geometric degree of the
pool vector indexed by the grade-`p` by grade-`(p-1)` cross-pairing
table, `Bt` is the transpose of `B` and the lower-right block is zero.
This definition follows the words of the specification and is compared
with the computed `aBlock`. -/
def aBlockSpec (p : Nat) (DA DG : List Rat) (pr : IdxMat × IdxMat)
    (d d1 : Nat) : QMat :=
  (List.range (d + d1)).map (fun i => (List.range (d + d1)).map (fun j =>
    (-1 : Rat) ^ p *
      (if i < d then
        if j < d then DA.getD (ent pr.1 i j) 0
        else DG.getD (ent pr.2 i (j - d)) 0 / 2
      else
        if j < d then DG.getD (ent pr.2 j (i - d)) 0 / 2
        else 0)))

theorem aBlock_eq_spec (p : Nat) (DA DG : List Rat) (pr : IdxMat × IdxMat)
    (d d1 : Nat) (h1 : pr.1.length = d)
    (h1r : ∀ k, k < d → (pr.1.getD k []).length = d)
    (h2 : pr.2.length = d)
    (h2r : ∀ k, k < d → (pr.2.getD k []).length = d1)
    (hd : 0 < d) :
    aBlock p DA DG pr = aBlockSpec p DA DG pr d d1 := by
  have hhead : (pr.2.headD []).length = d1 := by
    rw [headD_getD]
    exact h2r 0 hd
  have hArow : ∀ k, k < d →
      ((ahRepl (fun q => DA.getD q 0) d d (castQ pr.1)).getD k []).length
        = d := by
    intro k hk
    rw [ahRepl_row_length, castQ_getD, List.length_map, h1r k hk]
  have hBrow : ∀ k, k < d →
      ((ahRepl (fun q => DG.getD q 0 / 2) d d1 (castQ pr.2)).getD k
        []).length = d1 := by
    intro k hk
    rw [ahRepl_row_length, castQ_getD, List.length_map, h2r k hk]
  have hAent : ∀ k j, k < d → j < d →
      ((ahRepl (fun q => DA.getD q 0) d d (castQ pr.1)).getD k []).getD j 0
        = DA.getD (ent pr.1 k j) 0 := by
    intro k j hk hj
    rw [ahRepl_ent _ _ _ _ k j hk (by rw [castQ_length, h1]; exact hk) hj
        (by rw [castQ_getD, List.length_map, h1r k hk]; exact hj),
      castQ_getD, getD_map_cast, num_toNat_cast]
    rfl
  have hBent : ∀ k j, k < d → j < d1 →
      ((ahRepl (fun q => DG.getD q 0 / 2) d d1 (castQ pr.2)).getD k
        []).getD j 0 = DG.getD (ent pr.2 k j) 0 / 2 := by
    intro k j hk hj
    rw [ahRepl_ent _ _ _ _ k j hk (by rw [castQ_length, h2]; exact hk) hj
        (by rw [castQ_getD, List.length_map, h2r k hk]; exact hj),
      castQ_getD, getD_map_cast, num_toNat_cast]
    rfl
  have hgoal : aBlock p DA DG pr
      = scaleM ((-1 : Rat) ^ p)
          (blockM (ahRepl (fun q => DA.getD q 0) d d (castQ pr.1))
            (ahRepl (fun q => DG.getD q 0 / 2) d d1 (castQ pr.2)) d d d1) := by
    unfold aBlock
    rw [h1, h2, hhead]
  rw [hgoal]
  apply eq_of_getD ([] : List Rat)
  · rw [scaleM_length, blockM_length]
    unfold aBlockSpec
    rw [List.length_map, List.length_range]
  · intro k hk
    rw [scaleM_length, blockM_length] at hk
    have hrow := blockM_row_len
      (ahRepl (fun q => DA.getD q 0) d d (castQ pr.1))
      (ahRepl (fun q => DG.getD q 0 / 2) d d1 (castQ pr.2)) d d1
      hArow hBrow k hk
    rw [scaleM_getD]
    have hspec : (aBlockSpec p DA DG pr d d1).getD k []
        = (List.range (d + d1)).map (fun j =>
            (-1 : Rat) ^ p *
              (if k < d then
                if j < d then DA.getD (ent pr.1 k j) 0
                else DG.getD (ent pr.2 k (j - d)) 0 / 2
              else
                if j < d then DG.getD (ent pr.2 j (k - d)) 0 / 2
                else 0)) := by
      unfold aBlockSpec
      rw [getD_map_range _ _ k [] hk]
    rw [hspec]
    apply eq_of_getD (0 : Rat)
    · rw [List.length_map, hrow, List.length_map, List.length_range]
    · intro j hj
      rw [List.length_map, hrow] at hj
      rw [getD_map_mul, getD_map_range _ _ j 0 hj,
        blockM_ent _ _ d d1 _ _ hArow hBrow hAent hBent k j hk hj]

theorem N0_getD (L : List (List Vec)) (Q p : Nat) (h1 : 1 ≤ p)
    (h2 : p < 1 + Q) :
    ((([[0]], ([] : IdxMat)) :: (List.range' 1 Q).map (fun p =>
        (zeroM (L.getD p []).length (L.getD p []).length,
         zeroM (L.getD p []).length (L.getD (p - 1) []).length))).getD p
        ([], []))
      = (zeroM (L.getD p []).length (L.getD p []).length,
         zeroM (L.getD p []).length (L.getD (p - 1) []).length) := by
  obtain ⟨k, rfl⟩ : ∃ k, p = k + 1 := ⟨p - 1, by omega⟩
  rw [List.getD_cons_succ, getD_map_range1 _ 1 _ k ([], []) (by omega)]
  have h1k : 1 + k = k + 1 := by omega
  rw [h1k]

/-- C4: for `m, n >= 1`, when `aHodge(m,n)` returns the list `out`,
there are degree lists `DA` (the arithmetic degrees of the pool
`Z[0]`, computed with the tables `Tam(m,n)` and `harm_list(m+n-1)`)
and `DG` (the geometric degrees of the pool `Z[1]`) such that every
grade `p >= 1` of `out` is exactly the signed block matrix of the
specification: `(-1)^p * [[A,B],[Bt,0]]` with `A(i,j)` the arithmetic
degree of the vector indexed by the grade-`p` self-pairing table,
`B(i,j)` half the geometric degree of the vector indexed by the
grade-`p` by grade-`(p-1)` cross-pairing table, and zero lower-right
block. -/
theorem claim_C4_arith_blocks (m n : Int) (hm : 1 ≤ m) (hn : 1 ≤ n)
    (Z0 Z1 : List Vec) (MA : List (IdxMat × IdxMat)) (out : List QMat)
    (hA : Varith m n = Except.ok (some ((Z0, Z1), MA)))
    (hH : aHodge m n = Except.ok out) :
    ∃ (DA : List Rat) (DG : List Nat),
      Z0.mapM (fun v => adeg v (some (Tam m n))
        (some (harm_list (m + n - 1)))) = Except.ok DA ∧
      Z1.mapM gdeg = Except.ok DG ∧
      out.length = MA.length ∧
      ∀ p, 1 ≤ p → p < out.length →
        out.getD p [] = aBlockSpec p DA (DG.map Nat.cast)
          (MA.getD p ([], []))
          ((B m n).getD p []).length ((B m n).getD (p - 1) []).length := by
  unfold aHodge at hH
  rw [hA] at hH
  dsimp only at hH
  cases hDA : Z0.mapM (fun v => adeg v (some (Tam m n))
      (some (harm_list (m + n - 1)))) with
  | error e =>
    rw [hDA] at hH
    simp only [Bind.bind, Except.bind] at hH
    exact Except.noConfusion hH
  | ok DA =>
    rw [hDA] at hH
    simp only [Bind.bind, Except.bind] at hH
    cases hDG : Z1.mapM gdeg with
    | error e =>
      rw [hDG] at hH
      simp only [Bind.bind, Except.bind] at hH
      exact Except.noConfusion hH
    | ok DG =>
      rw [hDG] at hH
      simp only [Bind.bind, Except.bind] at hH
      injection hH with hout
      rcases Varith_ok_inv hA with ⟨hneg, hfoldA⟩
      have hinvA := vaFold_inv
        (vaVisits (B m n) ((n.toNat * m.toNat + 1) / 2))
        (([smul (n.toNat * m.toNat + 1) (e1 n.toNat)], ([] : List Vec)),
          ([[0]], ([] : IdxMat)) ::
            (List.range' 1 ((n.toNat * m.toNat + 1) / 2)).map (fun p =>
              (zeroM ((B m n).getD p []).length
                  ((B m n).getD p []).length,
               zeroM ((B m n).getD p []).length
                 ((B m n).getD (p - 1) []).length)))
        ((Z0, Z1), MA) hfoldA (va_range_all m n)
        (List.nodup_singleton _) (List.nodup_nil) (SameShapeP_refl _)
      have hsh := hinvA.2.2.1
      have hMAlen : MA.length = 1 + (n.toNat * m.toNat + 1) / 2 := by
        have h := hsh.1
        rwa [List.length_cons, List.length_map, List.length_range',
          Nat.add_comm] at h
      have houtlen : out.length = MA.length := by
        rw [← hout, List.length_map, List.length_range]
      refine ⟨DA, DG, rfl, rfl, houtlen, ?_⟩
      intro p hp1 hp2
      rw [houtlen, hMAlen] at hp2
      have hBlen := (B_grades m n hm hn).1
      have hnm1 : 1 ≤ m.toNat * n.toNat := by
        have h1 : 1 ≤ m.toNat := by omega
        have h2 : 1 ≤ n.toNat := by omega
        exact Nat.one_le_iff_ne_zero.mpr (Nat.mul_ne_zero (by omega) (by omega))
      have hpB : p < (B m n).length := by
        rw [hBlen]
        rw [Nat.mul_comm n.toNat m.toNat] at hp2
        omega
      have hdpos : 0 < ((B m n).getD p []).length := by
        rcases (B_grades m n hm hn).2 p hpB with ⟨hne, _⟩
        exact List.length_pos.mpr hne
      have hget := N0_getD (B m n) ((n.toNat * m.toNat + 1) / 2) p hp1 hp2
      have hshp := hsh.2 p
      rw [hget] at hshp
      have h1 : (MA.getD p ([], [])).1.length
          = ((B m n).getD p []).length := by
        rw [hshp.1.1, zeroM_length]
      have h1r : ∀ k, k < ((B m n).getD p []).length →
          ((MA.getD p ([], [])).1.getD k []).length
            = ((B m n).getD p []).length := by
        intro k hk
        rw [hshp.1.2 k, zeroM_row_length _ _ k hk]
      have h2 : (MA.getD p ([], [])).2.length
          = ((B m n).getD p []).length := by
        rw [hshp.2.1, zeroM_length]
      have h2r : ∀ k, k < ((B m n).getD p []).length →
          ((MA.getD p ([], [])).2.getD k []).length
            = ((B m n).getD (p - 1) []).length := by
        intro k hk
        rw [hshp.2.2 k, zeroM_row_length _ _ k hk]
      have hgetout : out.getD p []
          = aBlock p DA (DG.map Nat.cast) (MA.getD p ([], [])) := by
        rw [← hout, getD_map_range _ _ p []
            (by rw [hMAlen] at *; omega),
          if_neg (by omega : ¬ p = 0)]
      rw [hgetout]
      exact aBlock_eq_spec p DA (DG.map Nat.cast) (MA.getD p ([], []))
        ((B m n).getD p []).length ((B m n).getD (p - 1) []).length
        h1 h1r h2 h2r hdpos


/-- Concrete arithmetic degree used by the `(1,1)` evaluation:
`adeg([2], Tam(1,1), harm_list(1)) = 1/2`. -/
theorem adeg_2_val : adeg [2] (some (Tam 1 1)) (some (harm_list (1 + 1 - 1)))
    = Except.ok (1/2 : Rat) := by
  have hT : Tam 1 1 = [] := by decide
  have hw : weight [2] = 2 := by decide
  have hmu : muPart [2] = [1, 1] := by decide
  have hm2 : (((2 : Nat) : Int) - 1).ediv (((1 : Nat)) : Int) = 1 := by decide
  have hs : srange 1 1 = [1] := by decide
  have hk : kostka (List.replicate (1 : Int).toNat 1 ++ [1]) [1, 1] = 1 := by decide
  have hk2 : kostka [1, 1] [1, 1] = 1 := by decide
  have hH : harm_list 1 = [0, 1] := by
    unfold harm_list
    rw [hs, List.foldl_cons, List.foldl_nil]
    norm_num
  unfold adeg
  simp only [List.length_cons, List.length_nil, hw]
  norm_num [hm2, hT, hs, hH, hmu, hk, hk2]


/-- Concrete evaluation of `aHodge(1,1)`. -/
theorem aHodge_1_1 : aHodge 1 1 = Except.ok
    [[[(1/2 : Rat)]], [[-1/2, -1/2], [-1/2, 0]]] := by
  have hV : Varith 1 1 = Except.ok (some (([[2]], [[1]]),
      [([[0]], ([] : IdxMat)), ([[0]], [[0]])])) := by decide
  have hgdeg : gdeg [1] = Except.ok 1 := by decide
  unfold aHodge
  rw [hV]
  dsimp only
  rw [List.mapM_cons, List.mapM_nil, adeg_2_val]
  rw [List.mapM_cons, List.mapM_nil, hgdeg]
  simp only [Bind.bind, Except.bind, pure, Except.pure]
  norm_num [aBlock, ahRepl, ahRepl_eq_rows, ahRow, castQ, setMQ, blockM,
    transposeQ, scaleM, List.range_succ]


/-- Witness for C4 at the concrete input `(m,n) = (1,1)`. -/
theorem claim_C4_witness :
    (1 : Int) ≤ 1 ∧
    Varith 1 1 = Except.ok (some (([[2]], [[1]]),
      [([[0]], ([] : IdxMat)), ([[0]], [[0]])])) ∧
    aHodge 1 1 = Except.ok [[[(1/2 : Rat)]], [[-1/2, -1/2], [-1/2, 0]]] ∧
    (∃ (DA : List Rat) (DG : List Nat),
      ([[2]] : List Vec).mapM (fun v => adeg v (some (Tam 1 1))
        (some (harm_list (1 + 1 - 1)))) = Except.ok DA ∧
      ([[1]] : List Vec).mapM gdeg = Except.ok DG ∧
      ([[[(1/2 : Rat)]], [[-1/2, -1/2], [-1/2, 0]]] : List QMat).length
        = ([([[0]], ([] : IdxMat)), ([[0]], [[0]])]
            : List (IdxMat × IdxMat)).length ∧
      ∀ p, 1 ≤ p →
        p < ([[[(1/2 : Rat)]], [[-1/2, -1/2], [-1/2, 0]]] : List QMat).length →
        ([[[(1/2 : Rat)]], [[-1/2, -1/2], [-1/2, 0]]] : List QMat).getD p []
          = aBlockSpec p DA (DG.map Nat.cast)
            (([([[0]], ([] : IdxMat)), ([[0]], [[0]])]
                : List (IdxMat × IdxMat)).getD p ([], []))
            ((B 1 1).getD p []).length ((B 1 1).getD (p - 1) []).length) :=
  ⟨by decide, by decide, aHodge_1_1,
    claim_C4_arith_blocks 1 1 (by decide) (by decide) [[2]] [[1]]
      [([[0]], ([] : IdxMat)), ([[0]], [[0]])]
      [[[(1/2 : Rat)]], [[-1/2, -1/2], [-1/2, 0]]]
      (by decide) aHodge_1_1⟩
